import Mathlib

/-!
Shallow embedding, in Lean 4, of the motion-planning core of the
multi-agent navigation repository (grids, topology adapters, the A*
planner with its path cache, the command layer, the agent update logic,
the pheromone field and the stigmergic gate of the trabalho-11 builds).

Conventions of the embedding:
* Rust f32 scalars are idealised as rationals; comparisons written in the
  source on Euclidean distances are modelled on squared distances, which
  is equivalent for non-negative radii and avoids square roots.
* Rust `usize` is modelled as `Nat`.  The `usize::MAX` sentinel used by
  the A* relaxation for a missing g-cost is modelled by the `none` case
  of the lookup (a fresh cell is always relaxed).
* HashMaps used only through get and insert are modelled as association
  lists where insert prepends (the most recent binding shadows).
* The binary heap of the A* open set is modelled as a list from which
  `popMax` extracts a maximal node under the comparator of the source
  (smaller f first, ties by larger lexicographic position); along any
  run of the algorithm two distinct queue entries never compare equal,
  so this extraction coincides with any heap implementation.
* The Rust while-loops are given an explicit fuel parameter; theorems
  that depend on full termination carry a sufficient-fuel hypothesis
  discharged by an explicit bound.
-/

namespace Spec2Proof


/-- Grid coordinates, x then y, mirroring the (usize, usize) pairs. -/
abbrev Pos := Nat × Nat


/-- Cell classification from grid.rs. -/
inductive CellType where
  | Empty
  | Obstacle
deriving DecidableEq, Repr


/-- Dense rectangular store from grid.rs; cells are indexed row first,
as in the source (cells[y][x]). -/
structure Grid where
  width : Nat
  height : Nat
  cells : List (List CellType)
deriving Repr


/-- Mirror of Grid::new. -/
def Grid.new (width height : Nat) : Grid :=
  ⟨width, height, List.replicate height (List.replicate width CellType.Empty)⟩


/-- Mirror of Grid::set_cell. -/
def Grid.set_cell (g : Grid) (x y : Nat) (c : CellType) : Grid :=
  if x < g.width ∧ y < g.height then
    { g with cells := g.cells.set y ((g.cells.getD y []).set x c) }
  else g


/-- Mirror of Grid::is_obstacle: out-of-range addresses report blocked. -/
def Grid.is_obstacle (g : Grid) (x y : Nat) : Bool :=
  if x < g.width ∧ y < g.height then
    (g.cells.getD y []).getD x CellType.Obstacle == CellType.Obstacle
  else
    true


/-- Mirror of Grid::clear. -/
def Grid.clear (g : Grid) : Grid :=
  { g with cells := List.replicate g.height (List.replicate g.width CellType.Empty) }


/-- The GridAdapter trait of grid_adapter.rs, as a record of its three
methods. -/
structure GridAdapterM where
  get_neighbors : Pos → List Pos
  is_valid_position : Pos → Bool
  movement_cost : Pos → Pos → Nat


/-- Mirror of the RectangularCardinalAdapter implementation: candidate
neighbors pushed in the order north, south, west, east, each guarded by
the bounds check of the source, then filtered by is_obstacle. -/
def RectangularCardinalAdapter (g : Grid) : GridAdapterM where
  get_neighbors := fun pos =>
    ((if 0 < pos.2 then [(pos.1, pos.2 - 1)] else []) ++
     (if pos.2 + 1 < g.height then [(pos.1, pos.2 + 1)] else []) ++
     (if 0 < pos.1 then [(pos.1 - 1, pos.2)] else []) ++
     (if pos.1 + 1 < g.width then [(pos.1 + 1, pos.2)] else [])).filter
      (fun n => ! g.is_obstacle n.1 n.2)
  is_valid_position := fun pos =>
    decide (pos.1 < g.width) && decide (pos.2 < g.height) && ! g.is_obstacle pos.1 pos.2
  movement_cost := fun _ _ => 1


/-- Direction table of the RectangularDiagonalAdapter, in source order. -/
def diagonalDirections : List (Int × Int) :=
  [(0, -1), (0, 1), (-1, 0), (1, 0), (-1, -1), (1, -1), (-1, 1), (1, 1)]


/-- Mirror of RectangularDiagonalAdapter::get_neighbors. -/
def RectangularDiagonalAdapter (g : Grid) : GridAdapterM where
  get_neighbors := fun pos =>
    diagonalDirections.filterMap (fun d =>
      let nx : Int := (pos.1 : Int) + d.1
      let ny : Int := (pos.2 : Int) + d.2
      if 0 ≤ nx ∧ 0 ≤ ny then
        let np : Pos := (nx.toNat, ny.toNat)
        if np.1 < g.width ∧ np.2 < g.height ∧ g.is_obstacle np.1 np.2 = false then
          some np
        else none
      else none)
  is_valid_position := fun pos =>
    decide (pos.1 < g.width) && decide (pos.2 < g.height) && ! g.is_obstacle pos.1 pos.2
  movement_cost := fun f t =>
    let dx := max f.1 t.1 - min f.1 t.1
    let dy := max f.2 t.2 - min f.2 t.2
    if 0 < dx ∧ 0 < dy then 14 else 10


/-- Direction tables of the HexagonalAdapter, in source order. -/
def hexDirections (flat_top : Bool) (pos : Pos) : List (Int × Int) :=
  if flat_top then
    if pos.2 % 2 = 0 then
      [(0, -1), (1, 0), (1, 1), (0, 1), (-1, 1), (-1, 0)]
    else
      [(0, -1), (1, -1), (1, 0), (0, 1), (-1, 0), (-1, -1)]
  else
    if pos.1 % 2 = 0 then
      [(1, 0), (0, 1), (-1, 1), (-1, 0), (-1, -1), (0, -1)]
    else
      [(1, 0), (1, 1), (0, 1), (-1, 0), (0, -1), (1, -1)]


/-- Mirror of HexagonalAdapter. -/
def HexagonalAdapter (g : Grid) (flat_top : Bool) : GridAdapterM where
  get_neighbors := fun pos =>
    (hexDirections flat_top pos).filterMap (fun d =>
      let nx : Int := (pos.1 : Int) + d.1
      let ny : Int := (pos.2 : Int) + d.2
      if 0 ≤ nx ∧ 0 ≤ ny then
        let np : Pos := (nx.toNat, ny.toNat)
        if np.1 < g.width ∧ np.2 < g.height ∧ g.is_obstacle np.1 np.2 = false then
          some np
        else none
      else none)
  is_valid_position := fun pos =>
    decide (pos.1 < g.width) && decide (pos.2 < g.height) && ! g.is_obstacle pos.1 pos.2
  movement_cost := fun _ _ => 1


/-- Grid mode selector of the trabalho-11 main programs. -/
inductive GridMode where
  | Cardinal
  | Diagonal
  | Hexagonal
deriving DecidableEq, Repr


/-- The adapter selected for a mode by calculate_path in main.rs
(the hexagonal adapter is always constructed flat-top). -/
def adapterOf (mode : GridMode) (g : Grid) : GridAdapterM :=
  match mode with
  | GridMode.Cardinal => RectangularCardinalAdapter g
  | GridMode.Diagonal => RectangularDiagonalAdapter g
  | GridMode.Hexagonal => HexagonalAdapter g true


/-- Association-list lookup; models HashMap::get under the insert-as-
prepend convention. -/
def alookup {κ α : Type} [DecidableEq κ] : List (κ × α) → κ → Option α
  | [], _ => none
  | (k, v) :: rest, q => if k = q then some v else alookup rest q


/-- Priority-queue node of pathfinding_adapter.rs. -/
structure Node where
  pos : Pos
  f_cost : Nat
  g_cost : Nat
deriving DecidableEq, Repr


/-- Lexicographic comparison of positions, as derived for (usize, usize). -/
def posCmp (a b : Pos) : Ordering :=
  (compare a.1 b.1).then (compare a.2 b.2)


/-- The Ord implementation of Node: reversed on f_cost (so the max is the
node of smallest f), ties broken by position. -/
def nodeCmp (a b : Node) : Ordering :=
  (compare b.f_cost a.f_cost).then (posCmp a.pos b.pos)


/-- Extraction of a maximal node, modelling BinaryHeap::pop. -/
def popMax : List Node → Option (Node × List Node)
  | [] => none
  | n :: rest =>
    match popMax rest with
    | none => some (n, [])
    | some (m, rest') =>
      if nodeCmp n m = Ordering.lt then some (m, n :: rest') else some (n, rest)


/-- Manhattan heuristic of pathfinding_adapter.rs (abs_diff sums). -/
def heuristic (a b : Pos) : Nat :=
  (max a.1 b.1 - min a.1 b.1) + (max a.2 b.2 - min a.2 b.2)


/-- Walk of the came_from chain, with fuel bounding the number of
lookups; reconstruct_path supplies fuel that the invariants prove
sufficient. -/
def reconWalk : Nat → List (Pos × Pos) → Pos → List Pos
  | 0, _, current => [current]
  | fuel + 1, cf, current =>
    match alookup cf current with
    | none => [current]
    | some prev => current :: reconWalk fuel cf prev


/-- Mirror of reconstruct_path: push the chain then reverse. -/
def reconstruct_path (cf : List (Pos × Pos)) (current : Pos) : List Pos :=
  (reconWalk cf.length cf current).reverse


/-- Mutable state threaded through the A* search loop. -/
structure AState where
  open_set : List Node
  came_from : List (Pos × Pos)
  g_costs : List (Pos × Nat)


/-- One relaxation step of the inner neighbor loop of
a_star_with_adapter. -/
def relaxNeighbor (A : GridAdapterM) (endP : Pos) (cur : Node)
    (st : AState) (npos : Pos) : AState :=
  let move_cost := A.movement_cost cur.pos npos
  let new_g := cur.g_cost + move_cost
  let improved : Bool :=
    match alookup st.g_costs npos with
    | some old => decide (new_g < old)
    | none => true
  if improved then
    { open_set := ⟨npos, new_g + heuristic npos endP, new_g⟩ :: st.open_set
      came_from := (npos, cur.pos) :: st.came_from
      g_costs := (npos, new_g) :: st.g_costs }
  else st


/-- The full neighbor loop for one popped node. -/
def relaxAll (A : GridAdapterM) (endP : Pos) (cur : Node) (st : AState) : AState :=
  (A.get_neighbors cur.pos).foldl (relaxNeighbor A endP cur) st


/-- The A* while-loop, with explicit fuel. -/
def astarLoop (A : GridAdapterM) (endP : Pos) : Nat → AState → Option (List Pos)
  | 0, _ => none
  | fuel + 1, st =>
    match popMax st.open_set with
    | none => none
    | some (current, rest) =>
      if current.pos = endP then some (reconstruct_path st.came_from endP)
      else astarLoop A endP fuel (relaxAll A endP current { st with open_set := rest })


/-- Initial search state of a_star_with_adapter. -/
def astarInit (start endP : Pos) : AState :=
  { open_set := [⟨start, heuristic start endP, 0⟩]
    came_from := []
    g_costs := [(start, 0)] }


/-- Mirror of a_star_with_adapter (pathfinding_adapter.rs), with the
loop fuel made explicit. -/
def a_star_with_adapter (A : GridAdapterM) (fuel : Nat) (start endP : Pos) :
    Option (List Pos) :=
  if A.is_valid_position start = true ∧ A.is_valid_position endP = true then
    astarLoop A endP fuel (astarInit start endP)
  else none


/-- Mirror of PathManager::get_or_calculate: the cache is passed and
returned explicitly in place of the singleton state. -/
def get_or_calculate (cache : List ((Pos × Pos) × List Pos)) (start endP : Pos)
    (calculator : Unit → Option (List Pos)) :
    Option (List Pos) × List ((Pos × Pos) × List Pos) :=
  match alookup cache (start, endP) with
  | some path => (some path, cache)
  | none =>
    match calculator () with
    | some path => (some path, ((start, endP), path) :: cache)
    | none => (none, cache)


/-- Total cost of a path under an adapter: the movement costs summed
over consecutive pairs. -/
def pathCost (A : GridAdapterM) : List Pos → Nat
  | [] => 0
  | [_] => 0
  | a :: b :: rest => A.movement_cost a b + pathCost A (b :: rest)


/-! Search invariant of the A* loop.  The facts recorded here are exactly
what path reconstruction needs: g_costs holds the start at cost zero,
came_from links every relaxed cell to a neighbor-predecessor of strictly
smaller recorded cost, and every open node dominates its recorded cost. -/

/-- Facts about an adapter used by the A* correctness arguments; all
three concrete adapters satisfy them. -/
structure AdapterOK (A : GridAdapterM) : Prop where
  neighbors_valid : ∀ c n, n ∈ A.get_neighbors c → A.is_valid_position n = true
  cost_pos : ∀ c n, 1 ≤ A.movement_cost c n


/-- Invariant carried through the A* loop. -/
structure SearchInv (A : GridAdapterM) (start : Pos) (st : AState) : Prop where
  g_start : alookup st.g_costs start = some 0
  cf_start : alookup st.came_from start = none
  g_valid : ∀ p v, alookup st.g_costs p = some v → A.is_valid_position p = true
  cf_adj : ∀ n c, alookup st.came_from n = some c → n ∈ A.get_neighbors c
  cf_dec : ∀ n c, alookup st.came_from n = some c →
    ∃ vn vc, alookup st.g_costs n = some vn ∧ alookup st.g_costs c = some vc ∧ vc < vn
  g_cf : ∀ p v, alookup st.g_costs p = some v →
    p = start ∨ ∃ c, alookup st.came_from p = some c
  open_g : ∀ nd ∈ st.open_set, ∃ v, alookup st.g_costs nd.pos = some v ∧ v ≤ nd.g_cost


/-- Key membership test for the walk measure. -/
def walkKeyBelow (g : List (Pos × Nat)) (bound : Nat) (p : Pos) : Bool :=
  match alookup g p with
  | some vp => decide (vp ≤ bound)
  | none => false


/-- Relaxed cells whose recorded cost is at most the bound; the walk
measure. -/
def walkSet (cf : List (Pos × Pos)) (g : List (Pos × Nat)) (bound : Nat) : Finset Pos :=
  (cf.map Prod.fst).toFinset.filter (fun p => walkKeyBelow g bound p = true)


/-- The properties of a produced path asserted by the specification:
non-empty, start to goal inclusive, all cells valid under the oracle,
consecutive cells adjacent under the oracle. -/
def PathOK (A : GridAdapterM) (start endP : Pos) (p : List Pos) : Prop :=
  p ≠ [] ∧ p.head? = some start ∧ p.getLast? = some endP ∧
  (∀ x ∈ p, A.is_valid_position x = true) ∧
  List.Chain' (fun a b => b ∈ A.get_neighbors a) p


/-- A cell that is inside the grid and not an obstacle. -/
def CellOpen (g : Grid) (p : Pos) : Prop :=
  p.1 < g.width ∧ p.2 < g.height ∧ g.is_obstacle p.1 p.2 = false


/-- What the specification asserts of every cached path: non-empty,
start to goal, and valid plus oracle-adjacent with respect to the grid
and topology it was computed against. -/
def CachedOK (s e : Pos) (p : List Pos) : Prop :=
  p ≠ [] ∧ p.head? = some s ∧ p.getLast? = some e ∧
  ∃ (g : Grid) (m : GridMode),
    (∀ x ∈ p, CellOpen g x) ∧
    List.Chain' (fun a b => b ∈ (adapterOf m g).get_neighbors a) p


/-- Invariant of the path cache: every stored path satisfies CachedOK
for its key. -/
def CacheInv (cache : List ((Pos × Pos) × List Pos)) : Prop :=
  ∀ s e p, alookup cache (s, e) = some p → CachedOK s e p


/-! Termination of the A* loop.  Each iteration pops one node; every
accepted relaxation either strictly lowers a recorded cost or pays for
its push out of the budget reserved for cells not yet recorded.  The
measure below therefore strictly decreases per iteration. -/

/-- Cells with a recorded g-cost. -/
def gKeys (g : List (Pos × Nat)) : Finset Pos := (g.map Prod.fst).toFinset


/-- Recorded cost of a cell, zero when absent. -/
def gVal (g : List (Pos × Nat)) (p : Pos) : Nat := (alookup g p).getD 0


/-- Sum of all recorded costs. -/
def gSum (g : List (Pos × Nat)) : Nat := Finset.sum (gKeys g) (gVal g)


/-- Decreasing measure of the A* loop state. -/
def measureA (cells : Finset Pos) (C : Nat) (st : AState) : Nat :=
  st.open_set.length + gSum st.g_costs +
    (cells.card - (gKeys st.g_costs).card) * (cells.card * C + 2)


/-- Finiteness facts about an oracle: a finite cell universe and a cost
bound.  The three concrete adapters satisfy them with the grid cells and
the bound 14. -/
structure OracleBounds (A : GridAdapterM) (cells : Finset Pos) (C : Nat) : Prop where
  neighbors_mem : ∀ c n, n ∈ A.get_neighbors c → n ∈ cells
  valid_mem : ∀ p, A.is_valid_position p = true → p ∈ cells
  cost_le : ∀ c n, A.movement_cost c n ≤ C


/-- Size bounds carried through the loop. -/
structure BoundInv (cells : Finset Pos) (C : Nat) (st : AState) : Prop where
  keys_sub : gKeys st.g_costs ⊆ cells
  val_le : ∀ p v, alookup st.g_costs p = some v → v ≤ (gKeys st.g_costs).card * C
  node_le : ∀ nd ∈ st.open_set, nd.g_cost ≤ (gKeys st.g_costs).card * C


/-- The loop state runs the open set dry without reaching the goal.
This is the semantic reading of the only other way the search returns
none. -/
inductive Exhausts (A : GridAdapterM) (endP : Pos) : AState → Prop where
  | empty : ∀ st, popMax st.open_set = none → Exhausts A endP st
  | step : ∀ st cur rest, popMax st.open_set = some (cur, rest) → cur.pos ≠ endP →
      Exhausts A endP (relaxAll A endP cur { st with open_set := rest }) →
      Exhausts A endP st


/-- The finite cell universe of a grid. -/
def gridCells (g : Grid) : Finset Pos :=
  Finset.range g.width ×ˢ Finset.range g.height


/-! The agent, command, event and pheromone layer of the trabalho-11
builds.  Scalars are rationals; comparisons the source writes on
Euclidean distances are stated on squared distances. -/

/-- 2D vector over the rationals. -/
abbrev Vec2 := ℚ × ℚ


def vadd (a b : Vec2) : Vec2 := (a.1 + b.1, a.2 + b.2)


def vsub (a b : Vec2) : Vec2 := (a.1 - b.1, a.2 - b.2)


def vscale (c : ℚ) (v : Vec2) : Vec2 := (c * v.1, c * v.2)


/-- Squared Euclidean distance. -/
def dist2 (a b : Vec2) : ℚ :=
  (a.1 - b.1) * (a.1 - b.1) + (a.2 - b.2) * (a.2 - b.2)


/-- Squared norm. -/
def norm2 (v : Vec2) : ℚ := v.1 * v.1 + v.2 * v.2


/-- Events of observer.rs. -/
inductive AgentEvent where
  | OutOfFuel
  | Finished
  | ProximityAlert (other : Nat)
  | CollisionHit (other : Nat)
deriving DecidableEq, Repr


def PHYSICAL_RADIUS : ℚ := 8


def DETECTION_RADIUS : ℚ := 18


/-- The direct-communication agent of trabalho-11/direta agent.rs.
The color and observer list are presentational and omitted; emitted
events are returned instead of dispatched. -/
structure AgentD where
  id : Nat
  pos : Vec2
  path : List Vec2
  current_waypoint : Nat
  speed : ℚ
  velocity : Vec2
  is_finished : Bool
  fuel : ℚ
  current_step_size : ℚ
deriving DecidableEq, Repr


/-- Mirror of Agent::new of the direta build (fuel starts at 2000). -/
def AgentD.new (id : Nat) (start_pos : Vec2) (path : List Vec2) (speed : ℚ) : AgentD :=
  { id := id, pos := start_pos, path := path, current_waypoint := 0, speed := speed
    velocity := (0, 0), is_finished := false, fuel := 2000, current_step_size := 0 }


/-- Mirror of the direta Agent::update: the waypoint-arrival test
`pos.distance(target) < 10.0` is stated as squared distance below 100. -/
def AgentD.update (a : AgentD) (dt : ℚ) : AgentD × List AgentEvent :=
  let a := { a with current_step_size := a.speed * dt }
  if a.fuel ≤ 0 then
    if -1 < a.fuel then
      ({ a with fuel := -10, velocity := (0, 0) }, [AgentEvent.OutOfFuel])
    else
      ({ a with velocity := (0, 0) }, [])
  else
    if h : a.current_waypoint < a.path.length then
      if dist2 a.pos (a.path.get ⟨a.current_waypoint, h⟩) < 100 then
        let a2 := { a with current_waypoint := a.current_waypoint + 1 }
        if a2.path.length ≤ a2.current_waypoint then
          ({ a2 with is_finished := true, velocity := (0, 0) }, [AgentEvent.Finished])
        else (a2, [])
      else (a, [])
    else (a, [])


/-- Mirror of the direta Agent::get_next_step_target. -/
def AgentD.get_next_step_target (a : AgentD) : Option Vec2 :=
  if a.is_finished = true ∨ a.fuel ≤ 0 then none
  else if h : a.current_waypoint < a.path.length then
    some (a.path.get ⟨a.current_waypoint, h⟩)
  else none


/-- Mirror of MoveCommand of command.rs; the timestamp is unused by
execute and undo and omitted. -/
structure MoveCommand where
  agent_id : Nat
  old_pos : Vec2
  new_pos : Vec2
deriving DecidableEq, Repr


/-- Mirror of MoveCommand::execute on the direta agents: set_pos with
the new position, then consume_fuel(1.0); skipped silently when the
index misses or the stored id disagrees. -/
def MoveCommand.execute (cmd : MoveCommand) (agents : List AgentD) : List AgentD :=
  match agents.get? cmd.agent_id with
  | none => agents
  | some agent =>
    if agent.id = cmd.agent_id then
      agents.set cmd.agent_id { agent with pos := cmd.new_pos, fuel := agent.fuel - 1 }
    else agents


/-- Mirror of MoveCommand::undo: set_pos with the old position, then
restore_fuel(1.0); same defensive skip. -/
def MoveCommand.undo (cmd : MoveCommand) (agents : List AgentD) : List AgentD :=
  match agents.get? cmd.agent_id with
  | none => agents
  | some agent =>
    if agent.id = cmd.agent_id then
      agents.set cmd.agent_id { agent with pos := cmd.old_pos, fuel := agent.fuel + 1 }
    else agents


/-! Screen projections and the pheromone field of the indireta build. -/

def CELL_SIZE : ℚ := 20


def DECAY_RATE : ℚ := 5


def AGENT_EMISSION : ℚ := 100


def DANGER_THRESHOLD : ℚ := 1 / 2


def MAX_INTENSITY : ℚ := 10


def HEX_SIZE : ℚ := 15


/-- The source approximates the square root of three by the literal
1.73205, which is exactly rational. -/
def HEX_WIDTH : ℚ := HEX_SIZE * (173205 / 100000)


def VERTICAL_SPACING : ℚ := HEX_SIZE * (3 / 2)


/-- Floor of a rational, written through integer euclidean division so
that the kernel can evaluate it; ratFloorI_eq_floor relates it to the
mathematical floor. -/
def ratFloorI (q : ℚ) : Int := q.num / (q.den : Int)


/-- Rust float-to-usize cast after a floor: saturates at zero for
negative values. -/
def natFloorCast (q : ℚ) : Nat := (ratFloorI q).toNat


/-- Rust f32::round: half away from zero. -/
def rustRound (q : ℚ) : Int :=
  if 0 ≤ q then ratFloorI (q + 1 / 2) else -(ratFloorI (-q + 1 / 2))


/-- The f32::MAX sentinel that seeds the nearest-hex scan. -/
def F32_MAX : ℚ := 2 ^ 128 - 2 ^ 104


/-- Mirror of hex_grid_to_screen (hexagonal_renderer.rs). -/
def hex_grid_to_screen (pos : Pos) : Vec2 :=
  let offset_x : ℚ := if pos.2 % 2 = 1 then HEX_WIDTH / 2 else 0
  ((pos.1 : ℚ) * HEX_WIDTH + offset_x + HEX_WIDTH / 2,
   (pos.2 : ℚ) * VERTICAL_SPACING + HEX_SIZE)


/-- Mirror of hex_screen_to_grid: estimate, then scan the surrounding
3-by-3 block for the nearest center (squared distances compared). -/
def hex_screen_to_grid (screen_x screen_y : ℚ) : Pos :=
  let q_approx := (screen_x - HEX_WIDTH / 2) / HEX_WIDTH
  let r_approx := screen_y / VERTICAL_SPACING
  let y_est : Int := rustRound r_approx
  let x_est_raw := q_approx - ((Int.tmod y_est 2 : Int) : ℚ) * (1 / 2)
  let x_est : Int := rustRound x_est_raw
  let cands : List Pos :=
    ([-1, 0, 1] : List Int).flatMap (fun dy =>
      ([-1, 0, 1] : List Int).map (fun dx =>
        ((x_est + dx).toNat, (y_est + dy).toNat)))
  let scan := cands.foldl
    (fun (acc : Pos × ℚ) gp =>
      let center := hex_grid_to_screen gp
      let d2 := dist2 (screen_x, screen_y) center
      if d2 < acc.2 then (gp, d2) else acc)
    ((x_est.toNat, y_est.toNat), F32_MAX)
  scan.1


/-- Mirror of screen_to_grid of the indireta main.rs. -/
def screen_to_grid (x y : ℚ) (grid_mode : GridMode) : Pos :=
  match grid_mode with
  | GridMode.Hexagonal => hex_screen_to_grid x y
  | _ => (natFloorCast (x / CELL_SIZE), natFloorCast (y / CELL_SIZE))


/-- Mirror of PheromoneManager::init. -/
def pheromoneInit (width height : Nat) : List (List ℚ) :=
  List.replicate height (List.replicate width 0)


/-- Mirror of PheromoneManager::deposit; the frame time is the dt
argument. -/
def deposit (grid : List (List ℚ)) (pos : Vec2) (dt : ℚ)
    (grid_mode : GridMode) : List (List ℚ) :=
  let gc := screen_to_grid pos.1 pos.2 grid_mode
  if gc.2 < grid.length ∧ gc.1 < (grid.getD 0 []).length then
    let row := grid.getD gc.2 []
    let new_val := row.getD gc.1 0 + AGENT_EMISSION * dt
    grid.set gc.2 (row.set gc.1 (min new_val MAX_INTENSITY))
  else grid


/-- Mirror of PheromoneManager::is_blocked. -/
def is_blocked (grid : List (List ℚ)) (gx gy : Nat) : Bool :=
  if gy < grid.length ∧ gx < (grid.getD 0 []).length then
    decide (DANGER_THRESHOLD < (grid.getD gy []).getD gx 0)
  else false


/-- The per-cell decay of PheromoneManager::update. -/
def decayStep (dt : ℚ) (c : ℚ) : ℚ :=
  if 0 < c then
    (if c - DECAY_RATE * dt < 0 then 0 else c - DECAY_RATE * dt)
  else c


/-- Mirror of PheromoneManager::update (evaporation). -/
def pheromoneUpdate (grid : List (List ℚ)) (dt : ℚ) : List (List ℚ) :=
  grid.map (fun row => row.map (decayStep dt))


/-- The intensity of a cell, zero outside the field. -/
def cellVal (grid : List (List ℚ)) (gx gy : Nat) : ℚ :=
  (grid.getD gy []).getD gx 0


/-- All intensities lie in the closed band from zero to the ceiling. -/
def InRange (grid : List (List ℚ)) : Prop :=
  ∀ row ∈ grid, ∀ c ∈ row, 0 ≤ c ∧ c ≤ MAX_INTENSITY


/-- Mirror of IndirectCommunicationDecorator::get_next_step_target
(agent_decorator.rs of the indireta build).  The result of the wrapped
component is the inner argument; the ProximityAlert the gate fires at
the sentinel id is returned in the event list instead of dispatched
through notify. -/
def IndirectGateTarget (grid : List (List ℚ)) (grid_mode : GridMode)
    (current_pos : Vec2) (inner : Option Vec2) : Option Vec2 × List AgentEvent :=
  match inner with
  | some target =>
    let cg := screen_to_grid current_pos.1 current_pos.2 grid_mode
    let tg := screen_to_grid target.1 target.2 grid_mode
    if tg.1 ≠ cg.1 ∨ tg.2 ≠ cg.2 then
      if is_blocked grid tg.1 tg.2 then (none, [AgentEvent.ProximityAlert 9999])
      else (some target, [])
    else (some target, [])
  | none => (none, [])


/-! The direta coordinator tick (main.rs phases 1 to 4) and single-agent
operation runs.  The RVO velocity selection and the float normalisation
are pure vector computations with no event effects; they enter the tick
as function parameters because their trigonometric candidate sweep has
no exact rational form. -/

/-- Mirror of AgentRvoState (rvo.rs). -/
structure AgentRvoState where
  id : Nat
  pos : Vec2
  velocity : Vec2
  radius : ℚ
  max_speed : ℚ
  pref_velocity : Vec2
deriving Repr


/-- Fallback snapshot for the index lookup; the tick always indexes in
range, so it is never consulted. -/
def defaultRvo : AgentRvoState :=
  { id := 0, pos := (0, 0), velocity := (0, 0), radius := 0, max_speed := 0
    pref_velocity := (0, 0) }


/-- Mirror of the direta main-loop tick, phases 1 to 4: update every
agent, snapshot the swarm, pick a safe velocity and queue a move
command per unfinished agent, then flush the queue.  normf stands for
Vec2::normalize and vf for RvoManager::compute_safe_velocity; emitted
events are collected with the emitting agent id. -/
def diretaTick (normf : Vec2 → Vec2)
    (vf : AgentRvoState → List AgentRvoState → Vec2)
    (dt : ℚ) (agents : List AgentD) : List AgentD × List (Nat × AgentEvent) :=
  let upd := agents.map (fun a => a.update dt)
  let agents1 := upd.map Prod.fst
  let events := upd.flatMap (fun pr => pr.2.map (fun ev => (pr.1.id, ev)))
  let rvo_states := agents1.map (fun a =>
    let pref : Vec2 :=
      if a.is_finished then (0, 0)
      else
        match a.get_next_step_target with
        | some target =>
          let diff := vsub target a.pos
          if 1 / 100 < norm2 diff then vscale a.speed (normf diff) else (0, 0)
        | none => (0, 0)
    { id := a.id, pos := a.pos, velocity := a.velocity, radius := PHYSICAL_RADIUS,
      max_speed := a.speed, pref_velocity := pref })
  let stepped := agents1.enum.map (fun pr =>
    let a := pr.2
    if a.is_finished then ({ a with velocity := (0, 0) }, (none : Option MoveCommand))
    else
      let safe := vf (rvo_states.getD pr.1 defaultRvo) rvo_states
      let a2 := { a with velocity := safe }
      (a2, some ⟨a2.id, a2.pos, vadd a2.pos (vscale dt safe)⟩))
  let agents2 := stepped.map Prod.fst
  let cmds := stepped.filterMap Prod.snd
  let agents3 := cmds.foldl (fun ags cmd => MoveCommand.execute cmd ags) agents2
  (agents3, events)


/-- The operations a single agent sees across a run: a tick update, a
flushed move command, an undone move command. -/
inductive OpD where
  | update (dt : ℚ)
  | execCmd (cmd : MoveCommand)
  | undoCmd (cmd : MoveCommand)
deriving DecidableEq, Repr


/-- One operation applied to the agents and the accumulated event log. -/
def runStep (st : List AgentD × List (Nat × AgentEvent)) (op : OpD) :
    List AgentD × List (Nat × AgentEvent) :=
  match op with
  | OpD.update dt =>
    let upd := st.1.map (fun a => a.update dt)
    (upd.map Prod.fst, st.2 ++ upd.flatMap (fun pr => pr.2.map (fun ev => (pr.1.id, ev))))
  | OpD.execCmd cmd => (MoveCommand.execute cmd st.1, st.2)
  | OpD.undoCmd cmd => (MoveCommand.undo cmd st.1, st.2)


/-- A run over an operation list, from an agent list and an empty log. -/
def runOps (ops : List OpD) (agents : List AgentD) :
    List AgentD × List (Nat × AgentEvent) :=
  ops.foldl runStep (agents, [])


/-- Runs that never undo. -/
def NoUndo (ops : List OpD) : Prop := ∀ cmd, OpD.undoCmd cmd ∉ ops


/-- Constant-zero stand-in for the safe-velocity selector; the
counterexample agents are finished, so the tick never consults it. -/
def vfZero : AgentRvoState → List AgentRvoState → Vec2 := fun _ _ => (0, 0)


/-- Identity stand-in for Vec2::normalize; likewise never consulted by
the counterexample agents. -/
def normfId : Vec2 → Vec2 := fun v => v


/-- A finished agent parked at (100, 100). -/
def agColA : AgentD :=
  { id := 0, pos := (100, 100), path := [], current_waypoint := 0, speed := 150
    velocity := (0, 0), is_finished := true, fuel := 2000, current_step_size := 0 }


/-- A second finished agent parked at the same point. -/
def agColB : AgentD := { agColA with id := 1 }


/-- Invariant of a single-agent run: the list stays a singleton of the
same id, and either fuel is still above the sentinel band with no
OutOfFuel logged, or fuel is at or below it with at most one logged. -/
def C9Inv (aid : Nat) (st : List AgentD × List (Nat × AgentEvent)) : Prop :=
  ∃ a', st.1 = [a'] ∧ a'.id = aid ∧
    ((-1 < a'.fuel ∧ st.2.count (aid, AgentEvent.OutOfFuel) = 0) ∨
     (a'.fuel ≤ -1 ∧ st.2.count (aid, AgentEvent.OutOfFuel) ≤ 1))


/-- A command moving agent 0 in place. -/
def c9cmd : MoveCommand := ⟨0, (0, 0), (0, 0)⟩


/-- A pathless agent with the given fuel, shape-stable under ticks of dt 1. -/
def c9agent (f : ℚ) : AgentD :=
  { id := 0, pos := (0, 0), path := [], current_waypoint := 0, speed := 150
    velocity := (0, 0), is_finished := false, fuel := f, current_step_size := 150 }


/-- The refuel scenario: 2001 ticks each followed by a flushed move, then
eleven undos of the move, then one more tick. -/
def c9ops : List OpD :=
  (List.replicate 2001 [OpD.update 1, OpD.execCmd c9cmd]).flatten ++
    (List.replicate 11 (OpD.undoCmd c9cmd) ++ [OpD.update 1])


/-! C10: the index/id invariant of the trabalho-11 agents vectors. -/

/-- The ids of the agents, in vector order. -/
def idsOf (l : List AgentD) : List Nat := l.map AgentD.id


/-- The claimed invariant: the counter equals the vector length and the
agent stored at index k has id k. -/
def IdInv (st : List AgentD × Nat) : Prop :=
  st.2 = st.1.length ∧ idsOf st.1 = List.range st.1.length


/-- The mutations of the direta build's agents vector and next_agent_id
counter.  clearAll is the C key and the reset prefix of the 1/2/3 keys
(all of which set next_agent_id back to 0); spawnOne is one successful
append of spawn_random_agents, of the mouse-click spawn or, modelled from
the spec, of the benchmark spawners (the direta benchmark module is not
under src; its indireta twin appends with *next_id and increments); tick
is the coordinator tick; execC and undoC are the flushed and undone move
commands. -/
inductive DStep : List AgentD × Nat → List AgentD × Nat → Prop where
  | clearAll (st : List AgentD × Nat) : DStep st ([], 0)
  | spawnOne (st : List AgentD × Nat) (pos : Vec2) (path : List Vec2) (speed : ℚ) :
      DStep st (st.1 ++ [AgentD.new st.2 pos path speed], st.2 + 1)
  | tick (st : List AgentD × Nat) (normf : Vec2 → Vec2)
      (vf : AgentRvoState → List AgentRvoState → Vec2) (dt : ℚ) :
      DStep st ((diretaTick normf vf dt st.1).1, st.2)
  | execC (st : List AgentD × Nat) (cmd : MoveCommand) :
      DStep st (MoveCommand.execute cmd st.1, st.2)
  | undoC (st : List AgentD × Nat) (cmd : MoveCommand) :
      DStep st (MoveCommand.undo cmd st.1, st.2)


/-- The states of the direta build reachable from the initial empty
vector with counter 0. -/
inductive DReach : List AgentD × Nat → Prop where
  | init : DReach ([], 0)
  | step (st st2 : List AgentD × Nat) : DReach st → DStep st st2 → DReach st2


/-- Mirror of the indireta Agent (observers and color dropped). -/
structure AgentI where
  id : Nat
  pos : Vec2
  path : List Vec2
  current_waypoint : Nat
  speed : ℚ
  is_finished : Bool
  fuel : ℚ
  current_step_size : ℚ
deriving DecidableEq, Repr


/-- Mirror of the indireta Agent::new (fuel starts at 2000). -/
def AgentI.new (id : Nat) (start_pos : Vec2) (path : List Vec2) (speed : ℚ) : AgentI :=
  { id := id, pos := start_pos, path := path, current_waypoint := 0, speed := speed
    is_finished := false, fuel := 2000, current_step_size := 0 }


/-- Mirror of the indireta Agent::update: records the step size and
emits OutOfFuel once inside the band. -/
def AgentI.update (a : AgentI) (dt : ℚ) : AgentI × List AgentEvent :=
  let a := { a with current_step_size := a.speed * dt }
  if a.fuel ≤ 0 then
    if -1 < a.fuel then
      ({ a with fuel := -10 }, [AgentEvent.OutOfFuel])
    else (a, [])
  else (a, [])


/-- Mirror of the indireta Agent::set_pos: writes the position and
advances the waypoint when within 5.0 of it (squared distance below 25). -/
def AgentI.set_pos (a : AgentI) (pos : Vec2) : AgentI × List AgentEvent :=
  let a := { a with pos := pos }
  if h : a.current_waypoint < a.path.length then
    if dist2 a.pos (a.path.get ⟨a.current_waypoint, h⟩) < 25 then
      let a2 := { a with current_waypoint := a.current_waypoint + 1 }
      if a2.path.length ≤ a2.current_waypoint then
        ({ a2 with is_finished := true }, [AgentEvent.Finished])
      else (a2, [])
    else (a, [])
  else (a, [])


/-- Modelled from the spec: the indireta move command execute (the
indireta command module is declared in main.rs but is not under src): it
indexes the vector at agent_id, skips silently on a miss or an id
mismatch, and otherwise set_pos to the new position and consumes one
fuel. -/
def executeI (cmd : MoveCommand) (agents : List AgentI) : List AgentI :=
  match agents.get? cmd.agent_id with
  | none => agents
  | some agent =>
    if agent.id = cmd.agent_id then
      agents.set cmd.agent_id
        { (agent.set_pos cmd.new_pos).1 with fuel := agent.fuel - 1 }
    else agents


/-- Modelled from the spec: the indireta move command undo: set_pos back
to the old position and restore one fuel, with the same defensive skip. -/
def undoI (cmd : MoveCommand) (agents : List AgentI) : List AgentI :=
  match agents.get? cmd.agent_id with
  | none => agents
  | some agent =>
    if agent.id = cmd.agent_id then
      agents.set cmd.agent_id
        { (agent.set_pos cmd.old_pos).1 with fuel := agent.fuel + 1 }
    else agents


/-- The ids of the indireta agents, in vector order. -/
def idsOfI (l : List AgentI) : List Nat := l.map AgentI.id


/-- The same invariant for the indireta build. -/
def IdInvI (st : List AgentI × Nat) : Prop :=
  st.2 = st.1.length ∧ idsOfI st.1 = List.range st.1.length


/-- The mutations of the indireta build's agents vector and counter.
clearC is the C key (which does reset next_agent_id to 0); benchClear is
the clear done by the 1/2/3 benchmark keys, which does NOT reset the
counter; spawnOne is one successful append (spawn_random_agents,
spawn_single_agent of benchmark.rs, or the mouse-click spawn), each of
which appends with id *next_id and then increments; tick maps the agent
update; execC and undoC are the flushed and undone move commands. -/
inductive IStep : List AgentI × Nat → List AgentI × Nat → Prop where
  | clearC (st : List AgentI × Nat) : IStep st ([], 0)
  | benchClear (st : List AgentI × Nat) : IStep st ([], st.2)
  | spawnOne (st : List AgentI × Nat) (pos : Vec2) (path : List Vec2) (speed : ℚ) :
      IStep st (st.1 ++ [AgentI.new st.2 pos path speed], st.2 + 1)
  | tick (st : List AgentI × Nat) (dt : ℚ) :
      IStep st (st.1.map (fun a => (a.update dt).1), st.2)
  | execC (st : List AgentI × Nat) (cmd : MoveCommand) :
      IStep st (executeI cmd st.1, st.2)
  | undoC (st : List AgentI × Nat) (cmd : MoveCommand) :
      IStep st (undoI cmd st.1, st.2)


/-- The states of the indireta build reachable from the initial empty
vector with counter 0. -/
inductive IReach : List AgentI × Nat → Prop where
  | init : IReach ([], 0)
  | step (st st2 : List AgentI × Nat) : IReach st → IStep st st2 → IReach st2


/-! Basic lemmas about the open-set extraction and the association maps. -/

theorem popMax_none_iff (l : List Node) : popMax l = none ↔ l = [] := by
  cases l with
  | nil => simp [popMax]
  | cons n rest =>
    simp only [popMax]
    cases h : popMax rest with
    | none => simp
    | some pr =>
      cases pr with
      | mk m rest' => by_cases hc : nodeCmp n m = Ordering.lt <;> simp [hc]


theorem popMax_mem {l : List Node} {c : Node} {r : List Node}
    (h : popMax l = some (c, r)) : c ∈ l := by
  induction l generalizing c r with
  | nil => simp [popMax] at h
  | cons n rest ih =>
    simp only [popMax] at h
    cases hp : popMax rest with
    | none => rw [hp] at h; simp at h; simp [h.1]
    | some pr =>
      rcases pr with ⟨m, rest'⟩
      rw [hp] at h
      by_cases hc : nodeCmp n m = Ordering.lt
      · simp [hc] at h
        rcases h with ⟨h1, _⟩
        exact List.mem_cons_of_mem _ (h1 ▸ ih hp)
      · simp [hc] at h
        simp [h.1]


theorem popMax_rest_mem {l : List Node} {c : Node} {r : List Node}
    (h : popMax l = some (c, r)) : ∀ x ∈ r, x ∈ l := by
  induction l generalizing c r with
  | nil => simp [popMax] at h
  | cons n rest ih =>
    simp only [popMax] at h
    cases hp : popMax rest with
    | none =>
      rw [hp] at h; simp at h
      rcases h with ⟨_, h2⟩
      subst h2; intro x hx; simp at hx
    | some pr =>
      rcases pr with ⟨m, rest'⟩
      rw [hp] at h
      by_cases hc : nodeCmp n m = Ordering.lt
      · simp [hc] at h
        rcases h with ⟨_, h2⟩
        subst h2
        intro x hx
        rcases List.mem_cons.mp hx with h3 | h3
        · simp [h3]
        · exact List.mem_cons_of_mem _ (ih hp x h3)
      · simp [hc] at h
        rcases h with ⟨_, h2⟩
        subst h2
        intro x hx
        exact List.mem_cons_of_mem _ hx


theorem popMax_length {l : List Node} {c : Node} {r : List Node}
    (h : popMax l = some (c, r)) : r.length + 1 = l.length := by
  induction l generalizing c r with
  | nil => simp [popMax] at h
  | cons n rest ih =>
    simp only [popMax] at h
    cases hp : popMax rest with
    | none =>
      rw [hp] at h; simp at h
      rcases h with ⟨_, h2⟩
      subst h2
      have : rest = [] := (popMax_none_iff rest).mp hp
      simp [this]
    | some pr =>
      rcases pr with ⟨m, rest'⟩
      rw [hp] at h
      by_cases hc : nodeCmp n m = Ordering.lt
      · simp [hc] at h
        rcases h with ⟨_, h2⟩
        subst h2
        have := ih hp
        simp only [List.length_cons]
        omega
      · simp [hc] at h
        rcases h with ⟨_, h2⟩
        subst h2
        simp


theorem alookup_cons {κ α : Type} [DecidableEq κ] (k : κ) (v : α)
    (m : List (κ × α)) (q : κ) :
    alookup ((k, v) :: m) q = if k = q then some v else alookup m q := rfl


/-- Case split on one relaxation: either it is a no-op, or it prepends
the improved node to all three components, and the improvement is strict
against any previously recorded cost. -/
theorem relaxNeighbor_eq (A : GridAdapterM) (endP : Pos) (cur : Node)
    (st : AState) (npos : Pos) :
    relaxNeighbor A endP cur st npos = st ∨
    (relaxNeighbor A endP cur st npos =
      { open_set := ⟨npos, cur.g_cost + A.movement_cost cur.pos npos + heuristic npos endP,
                     cur.g_cost + A.movement_cost cur.pos npos⟩ :: st.open_set
        came_from := (npos, cur.pos) :: st.came_from
        g_costs := (npos, cur.g_cost + A.movement_cost cur.pos npos) :: st.g_costs } ∧
      ∀ old, alookup st.g_costs npos = some old →
        cur.g_cost + A.movement_cost cur.pos npos < old) := by
  unfold relaxNeighbor
  cases h : alookup st.g_costs npos with
  | none =>
    right
    constructor
    · simp
    · intro old hold; exact Option.noConfusion hold
  | some old =>
    by_cases hlt : cur.g_cost + A.movement_cost cur.pos npos < old
    · right
      constructor
      · simp [hlt]
      · intro o ho; cases ho; exact hlt
    · left; simp [hlt]


/-- One relaxation preserves the search invariant; the recorded cost of
the expanded node also survives unchanged. -/
theorem relaxNeighbor_inv {A : GridAdapterM} (hA : AdapterOK A) {start endP : Pos}
    {st : AState} (hinv : SearchInv A start st) {cur : Node} {npos : Pos}
    (hn : npos ∈ A.get_neighbors cur.pos) {v : Nat}
    (hcur : alookup st.g_costs cur.pos = some v) (hvg : v ≤ cur.g_cost) :
    SearchInv A start (relaxNeighbor A endP cur st npos) ∧
    alookup (relaxNeighbor A endP cur st npos).g_costs cur.pos = some v := by
  rcases relaxNeighbor_eq A endP cur st npos with heq | ⟨heq, himp⟩
  · rw [heq]; exact ⟨hinv, hcur⟩
  · set ng := cur.g_cost + A.movement_cost cur.pos npos with hng
    have hcost := hA.cost_pos cur.pos npos
    -- the improved cell is never the expanded cell
    have hne_cur : npos ≠ cur.pos := by
      intro hcontra
      subst hcontra
      have := himp v hcur
      omega
    -- the improved cell is never the start
    have hne_start : npos ≠ start := by
      intro hcontra
      subst hcontra
      have := himp 0 hinv.g_start
      omega
    rw [heq]
    refine ⟨⟨?_, ?_, ?_, ?_, ?_, ?_, ?_⟩, ?_⟩
    · -- g_start
      simp only [alookup_cons, if_neg hne_start]
      exact hinv.g_start
    · -- cf_start
      simp only [alookup_cons, if_neg hne_start]
      exact hinv.cf_start
    · -- g_valid
      intro p w hp
      simp only [alookup_cons] at hp
      by_cases hpe : npos = p
      · subst hpe; exact hA.neighbors_valid _ _ hn
      · rw [if_neg hpe] at hp; exact hinv.g_valid p w hp
    · -- cf_adj
      intro n c hnc
      simp only [alookup_cons] at hnc
      by_cases hpe : npos = n
      · subst hpe; rw [if_pos rfl] at hnc; cases hnc; exact hn
      · rw [if_neg hpe] at hnc; exact hinv.cf_adj n c hnc
    · -- cf_dec
      intro n c hnc
      simp only [alookup_cons] at hnc
      by_cases hpe : npos = n
      · subst hpe
        rw [if_pos rfl] at hnc
        cases hnc
        refine ⟨ng, v, ?_, ?_, ?_⟩
        · simp [alookup_cons]
        · simp only [alookup_cons, if_neg (fun h => hne_cur h)]
          exact hcur
        · omega
      · rw [if_neg hpe] at hnc
        obtain ⟨vn, vc, h1, h2, h3⟩ := hinv.cf_dec n c hnc
        by_cases hce : npos = c
        · subst hce
          have := himp vc h2
          exact ⟨vn, ng, by simp [alookup_cons, if_neg hpe, h1], by simp [alookup_cons], by omega⟩
        · exact ⟨vn, vc, by simp [alookup_cons, if_neg hpe, h1],
            by simp [alookup_cons, if_neg hce, h2], h3⟩
    · -- g_cf
      intro p w hp
      simp only [alookup_cons] at hp
      by_cases hpe : npos = p
      · subst hpe
        right
        exact ⟨cur.pos, by simp [alookup_cons]⟩
      · rw [if_neg hpe] at hp
        rcases hinv.g_cf p w hp with h1 | ⟨c, hc⟩
        · exact Or.inl h1
        · exact Or.inr ⟨c, by simp [alookup_cons, if_neg hpe, hc]⟩
    · -- open_g
      intro nd hnd
      rcases List.mem_cons.mp hnd with h1 | h1
      · subst h1
        exact ⟨ng, by simp [alookup_cons], le_refl _⟩
      · obtain ⟨w, hw1, hw2⟩ := hinv.open_g nd h1
        by_cases hpe : npos = nd.pos
        · subst hpe
          have := himp w hw1
          exact ⟨ng, by simp [alookup_cons], by omega⟩
        · exact ⟨w, by simp [alookup_cons, if_neg hpe, hw1], hw2⟩
    · -- recorded cost of the expanded cell unchanged
      simp only [alookup_cons, if_neg (fun h => hne_cur h)]
      exact hcur


/-- Folding relaxations over any sublist of the neighbor list preserves
the invariant. -/
theorem relaxFold_inv {A : GridAdapterM} (hA : AdapterOK A) {start endP : Pos}
    {cur : Node} {v : Nat} :
    ∀ (ns : List Pos) (st : AState),
      (∀ n ∈ ns, n ∈ A.get_neighbors cur.pos) →
      SearchInv A start st →
      alookup st.g_costs cur.pos = some v → v ≤ cur.g_cost →
      SearchInv A start (ns.foldl (relaxNeighbor A endP cur) st) := by
  intro ns
  induction ns with
  | nil => intro st _ hinv _ _; exact hinv
  | cons n rest ih =>
    intro st hmem hinv hcur hvg
    simp only [List.foldl_cons]
    obtain ⟨hinv2, hcur2⟩ :=
      relaxNeighbor_inv hA hinv (hmem n (List.mem_cons_self n rest)) hcur hvg
    exact ih _ (fun x hx => hmem x (List.mem_cons_of_mem _ hx)) hinv2 hcur2 hvg


/-- The full neighbor loop preserves the invariant. -/
theorem relaxAll_inv {A : GridAdapterM} (hA : AdapterOK A) {start endP : Pos}
    {cur : Node} {v : Nat} {st : AState}
    (hinv : SearchInv A start st)
    (hcur : alookup st.g_costs cur.pos = some v) (hvg : v ≤ cur.g_cost) :
    SearchInv A start (relaxAll A endP cur st) :=
  relaxFold_inv hA (A.get_neighbors cur.pos) st (fun _ hx => hx) hinv hcur hvg


/-- Restricting the open set preserves the invariant. -/
theorem SearchInv.restrictOpen {A : GridAdapterM} {start : Pos} {st : AState}
    (hinv : SearchInv A start st) {rest : List Node}
    (hsub : ∀ x ∈ rest, x ∈ st.open_set) :
    SearchInv A start { st with open_set := rest } :=
  ⟨hinv.g_start, hinv.cf_start, hinv.g_valid, hinv.cf_adj, hinv.cf_dec, hinv.g_cf,
    fun nd hnd => hinv.open_g nd (hsub nd hnd)⟩


/-! Correctness of path reconstruction.  The came_from walk strictly
decreases the recorded cost, so the number of distinct relaxed cells of
cost at most the starting cost bounds its length. -/

theorem alookup_some_mem_keys {κ α : Type} [DecidableEq κ]
    {m : List (κ × α)} {q : κ} {v : α} (h : alookup m q = some v) :
    q ∈ m.map Prod.fst := by
  induction m with
  | nil => cases h
  | cons kv rest ih =>
    rcases kv with ⟨k, w⟩
    simp only [alookup_cons] at h
    by_cases hk : k = q
    · subst hk; simp
    · rw [if_neg hk] at h
      simp [ih h]


theorem walkSet_card_le (cf : List (Pos × Pos)) (g : List (Pos × Nat)) (bound : Nat) :
    (walkSet cf g bound).card ≤ cf.length := by
  calc (walkSet cf g bound).card ≤ (cf.map Prod.fst).toFinset.card :=
        Finset.card_filter_le _ _
    _ ≤ (cf.map Prod.fst).length := (cf.map Prod.fst).toFinset_card_le
    _ = cf.length := by simp


theorem mem_walkSet {cf : List (Pos × Pos)} {g : List (Pos × Nat)} {bound : Nat}
    {p : Pos} :
    p ∈ walkSet cf g bound ↔
      p ∈ cf.map Prod.fst ∧ ∃ vp, alookup g p = some vp ∧ vp ≤ bound := by
  unfold walkSet walkKeyBelow
  rw [Finset.mem_filter]
  constructor
  · rintro ⟨h1, h2⟩
    refine ⟨List.mem_toFinset.mp h1, ?_⟩
    cases hv : alookup g p with
    | none => rw [hv] at h2; cases h2
    | some vp =>
      rw [hv] at h2
      exact ⟨vp, rfl, by simpa using h2⟩
  · rintro ⟨h1, vp, h2, h3⟩
    exact ⟨List.mem_toFinset.mpr h1, by rw [h2]; simpa using h3⟩


/-- Specification of the bounded came_from walk. -/
theorem reconWalk_spec {A : GridAdapterM} {start : Pos}
    {cf : List (Pos × Pos)} {g : List (Pos × Nat)}
    (hadj : ∀ n c, alookup cf n = some c → n ∈ A.get_neighbors c)
    (hdec : ∀ n c, alookup cf n = some c →
      ∃ vn vc, alookup g n = some vn ∧ alookup g c = some vc ∧ vc < vn)
    (hgcf : ∀ p v, alookup g p = some v → p = start ∨ ∃ c, alookup cf p = some c) :
    ∀ fuel c vc, alookup g c = some vc → (walkSet cf g vc).card ≤ fuel →
      reconWalk fuel cf c ≠ [] ∧
      (reconWalk fuel cf c).head? = some c ∧
      (reconWalk fuel cf c).getLast? = some start ∧
      (∀ x ∈ reconWalk fuel cf c, ∃ w, alookup g x = some w) ∧
      List.Chain' (fun a b => a ∈ A.get_neighbors b) (reconWalk fuel cf c) := by
  intro fuel
  induction fuel with
  | zero =>
    intro c vc hc hcard
    have hstart : c = start := by
      rcases hgcf c vc hc with h | ⟨prev, hprev⟩
      · exact h
      · exfalso
        have hmem : c ∈ walkSet cf g vc :=
          mem_walkSet.mpr ⟨alookup_some_mem_keys hprev, vc, hc, le_refl _⟩
        have := Finset.card_pos.mpr ⟨c, hmem⟩
        omega
    subst hstart
    refine ⟨by simp [reconWalk], by simp [reconWalk], by simp [reconWalk], ?_, by simp [reconWalk]⟩
    intro x hx
    simp only [reconWalk, List.mem_singleton] at hx
    subst hx
    exact ⟨vc, hc⟩
  | succ fuel ih =>
    intro c vc hc hcard
    cases hcf : alookup cf c with
    | none =>
      have hstart : c = start := by
        rcases hgcf c vc hc with h | ⟨prev, hprev⟩
        · exact h
        · rw [hcf] at hprev; cases hprev
      subst hstart
      refine ⟨?_, ?_, ?_, ?_, ?_⟩ <;> simp [reconWalk, hcf]
      exact ⟨vc, hc⟩
    | some prev =>
      obtain ⟨vn, vp, hvn, hvp, hlt⟩ := hdec c prev hcf
      have hvceq : vn = vc := by rw [hc] at hvn; exact (Option.some.inj hvn).symm
      subst hvceq
      -- measure decreases strictly
      have hcmem : c ∈ walkSet cf g vn :=
        mem_walkSet.mpr ⟨alookup_some_mem_keys hcf, vn, hc, le_refl _⟩
      have hsub : walkSet cf g vp ⊆ (walkSet cf g vn).erase c := by
        intro p hp
        obtain ⟨hk, wp, hwp, hle⟩ := mem_walkSet.mp hp
        refine Finset.mem_erase.mpr ⟨?_, mem_walkSet.mpr ⟨hk, wp, hwp, by omega⟩⟩
        intro hpc
        subst hpc
        rw [hc] at hwp
        cases hwp
        omega
      have hcard2 : (walkSet cf g vp).card ≤ fuel := by
        have h1 := Finset.card_le_card hsub
        have h2 : ((walkSet cf g vn).erase c).card = (walkSet cf g vn).card - 1 :=
          Finset.card_erase_of_mem hcmem
        have h3 := Finset.card_pos.mpr ⟨c, hcmem⟩
        omega
      obtain ⟨hne, hhead, hlast, hmemg, hchain⟩ := ih prev vp hvp hcard2
      have hres : reconWalk (fuel + 1) cf c = c :: reconWalk fuel cf prev := by
        simp [reconWalk, hcf]
      rw [hres]
      refine ⟨by simp, by simp, ?_, ?_, ?_⟩
      · -- last element
        cases hL : reconWalk fuel cf prev with
        | nil => exact absurd hL hne
        | cons b t =>
          rw [List.getLast?_cons_cons]
          rw [hL] at hlast
          exact hlast
      · intro x hx
        rcases List.mem_cons.mp hx with h1 | h1
        · subst h1; exact ⟨vn, hc⟩
        · exact hmemg x h1
      · -- chain
        cases hL : reconWalk fuel cf prev with
        | nil => exact absurd hL hne
        | cons b t =>
          rw [hL] at hhead hchain
          have hb : b = prev := by
            simp at hhead
            exact hhead
          refine List.chain'_cons.mpr ⟨?_, hchain⟩
          rw [hb]
          exact hadj c prev hcf


/-- Specification of reconstruct_path under the search invariant maps. -/
theorem reconstruct_path_spec {A : GridAdapterM} {start endP : Pos}
    {cf : List (Pos × Pos)} {g : List (Pos × Nat)}
    (hadj : ∀ n c, alookup cf n = some c → n ∈ A.get_neighbors c)
    (hdec : ∀ n c, alookup cf n = some c →
      ∃ vn vc, alookup g n = some vn ∧ alookup g c = some vc ∧ vc < vn)
    (hgcf : ∀ p v, alookup g p = some v → p = start ∨ ∃ c, alookup cf p = some c)
    {ve : Nat} (hve : alookup g endP = some ve) :
    reconstruct_path cf endP ≠ [] ∧
    (reconstruct_path cf endP).head? = some start ∧
    (reconstruct_path cf endP).getLast? = some endP ∧
    (∀ x ∈ reconstruct_path cf endP, ∃ w, alookup g x = some w) ∧
    List.Chain' (fun a b => b ∈ A.get_neighbors a) (reconstruct_path cf endP) := by
  have hcard : (walkSet cf g ve).card ≤ cf.length := walkSet_card_le cf g ve
  obtain ⟨hne, hhead, hlast, hmemg, hchain⟩ :=
    reconWalk_spec (A := A) hadj hdec hgcf cf.length endP ve hve hcard
  unfold reconstruct_path
  refine ⟨by simpa using hne, ?_, ?_, ?_, ?_⟩
  · rw [List.head?_reverse]
    exact hlast
  · rw [List.getLast?_reverse]
    exact hhead
  · intro x hx
    exact hmemg x (List.mem_reverse.mp hx)
  · rw [List.chain'_reverse]
    exact hchain


theorem astarLoop_some_props {A : GridAdapterM} (hA : AdapterOK A) {start endP : Pos} :
    ∀ (fuel : Nat) (st : AState), SearchInv A start st →
      ∀ p, astarLoop A endP fuel st = some p → PathOK A start endP p := by
  intro fuel
  induction fuel with
  | zero => intro st _ p hp; cases hp
  | succ fuel ih =>
    intro st hinv p hp
    rw [astarLoop] at hp
    cases hpop : popMax st.open_set with
    | none => rw [hpop] at hp; cases hp
    | some pr =>
      rcases pr with ⟨cur, rest⟩
      rw [hpop] at hp
      dsimp only at hp
      by_cases he : cur.pos = endP
      · rw [if_pos he] at hp
        have hp2 : reconstruct_path st.came_from endP = p := Option.some.inj hp
        obtain ⟨v, hv, _⟩ := hinv.open_g cur (popMax_mem hpop)
        rw [he] at hv
        obtain ⟨hne, hhead, hlast, hmemg, hchain⟩ :=
          reconstruct_path_spec (A := A) hinv.cf_adj hinv.cf_dec hinv.g_cf hv
        rw [hp2] at hne hhead hlast hmemg hchain
        refine ⟨hne, hhead, hlast, ?_, hchain⟩
        intro x hx
        obtain ⟨w, hw⟩ := hmemg x hx
        exact hinv.g_valid x w hw
      · rw [if_neg he] at hp
        obtain ⟨v, hv, hvg⟩ := hinv.open_g cur (popMax_mem hpop)
        have hinv2 : SearchInv A start { st with open_set := rest } :=
          hinv.restrictOpen (popMax_rest_mem hpop)
        have hinv3 : SearchInv A start
            (relaxAll A endP cur { st with open_set := rest }) :=
          relaxAll_inv hA hinv2 hv hvg
        exact ih _ hinv3 p hp


/-- Initial state invariant, given a valid start. -/
theorem searchInv_init (A : GridAdapterM) (start endP : Pos)
    (hvalid : A.is_valid_position start = true) :
    SearchInv A start (astarInit start endP) := by
  refine ⟨?_, ?_, ?_, ?_, ?_, ?_, ?_⟩
  · simp [astarInit, alookup_cons]
  · rfl
  · intro p v hp
    simp only [astarInit, alookup_cons] at hp
    by_cases h : start = p
    · subst h; exact hvalid
    · rw [if_neg h] at hp; cases hp
  · intro n c h; cases h
  · intro n c h; cases h
  · intro p v hp
    simp only [astarInit, alookup_cons] at hp
    by_cases h : start = p
    · exact Or.inl h.symm
    · rw [if_neg h] at hp; cases hp
  · intro nd hnd
    simp only [astarInit, List.mem_singleton] at hnd
    subst hnd
    exact ⟨0, by simp [astarInit, alookup_cons], le_refl _⟩


/-- Every path produced by the embedded a_star_with_adapter satisfies
the path properties, for any fuel. -/
theorem a_star_some_props {A : GridAdapterM} (hA : AdapterOK A)
    {fuel : Nat} {start endP : Pos} {p : List Pos}
    (h : a_star_with_adapter A fuel start endP = some p) :
    PathOK A start endP p := by
  unfold a_star_with_adapter at h
  by_cases hv : A.is_valid_position start = true ∧ A.is_valid_position endP = true
  · rw [if_pos hv] at h
    exact astarLoop_some_props hA fuel _ (searchInv_init A start endP hv.1) p h
  · rw [if_neg hv] at h
    cases h


/-! The three concrete adapters satisfy the adapter facts. -/

theorem is_obstacle_false_bounds {g : Grid} {x y : Nat}
    (h : g.is_obstacle x y = false) : x < g.width ∧ y < g.height := by
  unfold Grid.is_obstacle at h
  by_cases hb : x < g.width ∧ y < g.height
  · exact hb
  · rw [if_neg hb] at h; cases h


theorem validExpr_iff (g : Grid) (p : Pos) :
    (decide (p.1 < g.width) && decide (p.2 < g.height) && ! g.is_obstacle p.1 p.2) = true ↔
      g.is_obstacle p.1 p.2 = false := by
  constructor
  · intro h
    simp only [Bool.and_eq_true, Bool.not_eq_true'] at h
    exact h.2
  · intro h
    obtain ⟨h1, h2⟩ := is_obstacle_false_bounds h
    simp [h, h1, h2]


theorem adapterOK_cardinal (g : Grid) : AdapterOK (RectangularCardinalAdapter g) := by
  constructor
  · intro c n hn
    simp only [RectangularCardinalAdapter, List.mem_filter, Bool.not_eq_true'] at hn
    exact (validExpr_iff g n).mpr hn.2
  · intro c n
    exact le_refl 1


theorem adapterOK_diagonal (g : Grid) : AdapterOK (RectangularDiagonalAdapter g) := by
  constructor
  · intro c n hn
    simp only [RectangularDiagonalAdapter, List.mem_filterMap] at hn
    obtain ⟨d, _, hd⟩ := hn
    by_cases h1 : 0 ≤ (c.1 : Int) + d.1 ∧ 0 ≤ (c.2 : Int) + d.2
    · rw [if_pos h1] at hd
      by_cases h2 : ((c.1 : Int) + d.1).toNat < g.width ∧
          ((c.2 : Int) + d.2).toNat < g.height ∧
          g.is_obstacle ((c.1 : Int) + d.1).toNat ((c.2 : Int) + d.2).toNat = false
      · rw [if_pos h2] at hd
        cases hd
        exact (validExpr_iff g _).mpr h2.2.2
      · rw [if_neg h2] at hd; cases hd
    · rw [if_neg h1] at hd; cases hd
  · intro c n
    simp only [RectangularDiagonalAdapter]
    split <;> omega


theorem adapterOK_hexagonal (g : Grid) (ft : Bool) : AdapterOK (HexagonalAdapter g ft) := by
  constructor
  · intro c n hn
    simp only [HexagonalAdapter, List.mem_filterMap] at hn
    obtain ⟨d, _, hd⟩ := hn
    by_cases h1 : 0 ≤ (c.1 : Int) + d.1 ∧ 0 ≤ (c.2 : Int) + d.2
    · rw [if_pos h1] at hd
      by_cases h2 : ((c.1 : Int) + d.1).toNat < g.width ∧
          ((c.2 : Int) + d.2).toNat < g.height ∧
          g.is_obstacle ((c.1 : Int) + d.1).toNat ((c.2 : Int) + d.2).toNat = false
      · rw [if_pos h2] at hd
        cases hd
        exact (validExpr_iff g _).mpr h2.2.2
      · rw [if_neg h2] at hd; cases hd
    · rw [if_neg h1] at hd; cases hd
  · intro c n
    exact le_refl 1


theorem adapterOK_adapterOf (m : GridMode) (g : Grid) : AdapterOK (adapterOf m g) := by
  cases m with
  | Cardinal => exact adapterOK_cardinal g
  | Diagonal => exact adapterOK_diagonal g
  | Hexagonal => exact adapterOK_hexagonal g true


theorem valid_iff_cellOpen (m : GridMode) (g : Grid) (p : Pos) :
    (adapterOf m g).is_valid_position p = true ↔ CellOpen g p := by
  have h : (adapterOf m g).is_valid_position p =
      (decide (p.1 < g.width) && decide (p.2 < g.height) && ! g.is_obstacle p.1 p.2) := by
    cases m <;> rfl
  rw [h, validExpr_iff]
  constructor
  · intro hf
    obtain ⟨h1, h2⟩ := is_obstacle_false_bounds hf
    exact ⟨h1, h2, hf⟩
  · intro hc
    exact hc.2.2


theorem pathOK_cachedOK {grid : Grid} {mode : GridMode} {s e : Pos} {p : List Pos}
    (h : PathOK (adapterOf mode grid) s e p) : CachedOK s e p := by
  obtain ⟨h1, h2, h3, h4, h5⟩ := h
  refine ⟨h1, h2, h3, grid, mode, ?_, h5⟩
  intro x hx
  exact (valid_iff_cellOpen mode grid x).mp (h4 x hx)


/-- C4.  Every path returned by the cached planner
(get_or_calculate wrapping a_star_with_adapter under any of the three
adapters) is non-empty, begins at the requested start, ends at the
requested goal, contains only in-bounds non-obstacle cells of the grid
it was computed against, and has every pair of consecutive cells
adjacent under the oracle that produced it; the cache invariant is
preserved. -/
theorem C4_cached_path_props (grid : Grid) (mode : GridMode) (s e : Pos)
    (fuel : Nat) (cache : List ((Pos × Pos) × List Pos)) (hc : CacheInv cache) :
    (∀ p, (get_or_calculate cache s e
        (fun _ => a_star_with_adapter (adapterOf mode grid) fuel s e)).1 = some p →
      CachedOK s e p) ∧
    CacheInv (get_or_calculate cache s e
        (fun _ => a_star_with_adapter (adapterOf mode grid) fuel s e)).2 := by
  unfold get_or_calculate
  cases hl : alookup cache (s, e) with
  | some path =>
    refine ⟨?_, ?_⟩
    · intro p hp
      dsimp only at hp
      cases hp
      exact hc s e path hl
    · exact hc
  | none =>
    cases ha : a_star_with_adapter (adapterOf mode grid) fuel s e with
    | some q =>
      have hq : CachedOK s e q :=
        pathOK_cachedOK (a_star_some_props (adapterOK_adapterOf mode grid) ha)
      refine ⟨?_, ?_⟩
      · intro p hp
        dsimp only at hp
        cases hp
        exact hq
      · intro s2 e2 p hp
        dsimp only at hp
        rw [alookup_cons] at hp
        by_cases hk : (s, e) = (s2, e2)
        · rw [if_pos hk] at hp
          cases hp
          obtain ⟨hs2, he2⟩ := Prod.mk.injEq .. ▸ hk
          exact hs2 ▸ he2 ▸ hq
        · rw [if_neg hk] at hp
          exact hc s2 e2 p hp
    | none =>
      refine ⟨?_, ?_⟩
      · intro p hp
        dsimp only at hp
        cases hp
      · exact hc


/-- Witness for C4 at concrete inputs: the empty cache satisfies the
invariant, and the theorem applies. -/
theorem C4_cached_path_props_witness :
    CacheInv [] ∧
    ((∀ p, (get_or_calculate [] (0, 0) (2, 2)
        (fun _ => a_star_with_adapter (adapterOf GridMode.Cardinal (Grid.new 3 3)) 100 (0, 0) (2, 2))).1 = some p →
      CachedOK (0, 0) (2, 2) p) ∧
    CacheInv (get_or_calculate [] (0, 0) (2, 2)
        (fun _ => a_star_with_adapter (adapterOf GridMode.Cardinal (Grid.new 3 3)) 100 (0, 0) (2, 2))).2) :=
  ⟨fun _ _ _ h => Option.noConfusion h,
   C4_cached_path_props (Grid.new 3 3) GridMode.Cardinal (0, 0) (2, 2) 100 []
     (fun _ _ _ h => Option.noConfusion h)⟩


theorem mem_keys_exists_alookup {κ α : Type} [DecidableEq κ]
    {m : List (κ × α)} {q : κ} (h : q ∈ m.map Prod.fst) :
    ∃ v, alookup m q = some v := by
  induction m with
  | nil => simp at h
  | cons kv rest ih =>
    rcases kv with ⟨k, w⟩
    by_cases hk : k = q
    · exact ⟨w, by simp [alookup_cons, hk]⟩
    · simp only [List.map_cons, List.mem_cons] at h
      rcases h with h | h
      · exact absurd h.symm hk
      · obtain ⟨v, hv⟩ := ih h
        exact ⟨v, by simp [alookup_cons, hk, hv]⟩


theorem gKeys_cons (p : Pos) (v : Nat) (g : List (Pos × Nat)) :
    gKeys ((p, v) :: g) = insert p (gKeys g) := by
  simp [gKeys]


theorem gVal_cons_self (p : Pos) (v : Nat) (g : List (Pos × Nat)) :
    gVal ((p, v) :: g) p = v := by
  simp [gVal, alookup_cons]


theorem gVal_cons_ne {p q : Pos} (h : p ≠ q) (v : Nat) (g : List (Pos × Nat)) :
    gVal ((p, v) :: g) q = gVal g q := by
  simp [gVal, alookup_cons, h]


theorem gSum_insert_fresh {p : Pos} {g : List (Pos × Nat)}
    (h : p ∉ gKeys g) (v : Nat) : gSum ((p, v) :: g) = v + gSum g := by
  unfold gSum
  rw [gKeys_cons, Finset.sum_insert h]
  congr 1
  · exact gVal_cons_self p v g
  · apply Finset.sum_congr rfl
    intro q hq
    have hne : p ≠ q := fun hc => h (hc ▸ hq)
    exact gVal_cons_ne hne v g


theorem gSum_insert_existing {p : Pos} {g : List (Pos × Nat)} {old : Nat}
    (hmem : p ∈ gKeys g) (hold : alookup g p = some old) (v : Nat) :
    gSum ((p, v) :: g) + old = gSum g + v := by
  unfold gSum
  have hkeys : gKeys ((p, v) :: g) = gKeys g := by
    rw [gKeys_cons, Finset.insert_eq_self.mpr hmem]
  rw [hkeys]
  have h1 : Finset.sum (gKeys g) (gVal ((p, v) :: g)) =
      gVal ((p, v) :: g) p + Finset.sum ((gKeys g).erase p) (gVal ((p, v) :: g)) :=
    (Finset.add_sum_erase _ _ hmem).symm
  have h2 : Finset.sum (gKeys g) (gVal g) =
      gVal g p + Finset.sum ((gKeys g).erase p) (gVal g) :=
    (Finset.add_sum_erase _ _ hmem).symm
  have h3 : Finset.sum ((gKeys g).erase p) (gVal ((p, v) :: g)) =
      Finset.sum ((gKeys g).erase p) (gVal g) := by
    apply Finset.sum_congr rfl
    intro q hq
    exact gVal_cons_ne (Finset.ne_of_mem_erase hq).symm v g
  have h4 : gVal g p = old := by simp [gVal, hold]
  have h5 : gVal ((p, v) :: g) p = v := gVal_cons_self p v g
  omega


/-- One relaxation keeps the size bounds and never increases the
measure; the bound on the expanded node also survives. -/
theorem relaxNeighbor_bound {A : GridAdapterM} {cells : Finset Pos} {C : Nat}
    (hOB : OracleBounds A cells C) {endP : Pos} {cur : Node} {st : AState} {npos : Pos}
    (hB : BoundInv cells C st)
    (hn : npos ∈ A.get_neighbors cur.pos)
    (hg : cur.g_cost ≤ (gKeys st.g_costs).card * C) :
    BoundInv cells C (relaxNeighbor A endP cur st npos) ∧
    measureA cells C (relaxNeighbor A endP cur st npos) ≤ measureA cells C st ∧
    cur.g_cost ≤ (gKeys (relaxNeighbor A endP cur st npos).g_costs).card * C := by
  rcases relaxNeighbor_eq A endP cur st npos with heq | ⟨heq, himp⟩
  · rw [heq]; exact ⟨hB, le_refl _, hg⟩
  · rw [heq]
    set ng := cur.g_cost + A.movement_cost cur.pos npos with hngdef
    have hcost : A.movement_cost cur.pos npos ≤ C := hOB.cost_le cur.pos npos
    by_cases hmem : npos ∈ gKeys st.g_costs
    · -- existing cell, strictly improved
      obtain ⟨old, hold⟩ := mem_keys_exists_alookup (List.mem_toFinset.mp hmem)
      have hlt : ng < old := himp old hold
      have hkeys2 : gKeys ((npos, ng) :: st.g_costs) = gKeys st.g_costs := by
        rw [gKeys_cons, Finset.insert_eq_self.mpr hmem]
      have hvold : old ≤ (gKeys st.g_costs).card * C := hB.val_le npos old hold
      refine ⟨⟨?_, ?_, ?_⟩, ?_, ?_⟩
      · rw [hkeys2]; exact hB.keys_sub
      · intro p v hp
        rw [hkeys2]
        simp only [alookup_cons] at hp
        by_cases hpe : npos = p
        · rw [if_pos hpe] at hp
          cases hp
          omega
        · rw [if_neg hpe] at hp
          exact hB.val_le p v hp
      · intro nd hnd
        rw [hkeys2]
        rcases List.mem_cons.mp hnd with h1 | h1
        · subst h1; simp only; omega
        · exact hB.node_le nd h1
      · have hsum := gSum_insert_existing hmem hold ng
        simp only [measureA, List.length_cons, hkeys2]
        omega
      · rw [hkeys2]; exact hg
    · -- fresh cell
      have hmemcells : npos ∈ cells := hOB.neighbors_mem _ _ hn
      have hkeys2 : gKeys ((npos, ng) :: st.g_costs) = insert npos (gKeys st.g_costs) :=
        gKeys_cons npos ng st.g_costs
      have hcard2 : (gKeys ((npos, ng) :: st.g_costs)).card = (gKeys st.g_costs).card + 1 := by
        rw [hkeys2, Finset.card_insert_of_not_mem hmem]
      have hsub2 : gKeys ((npos, ng) :: st.g_costs) ⊆ cells := by
        rw [hkeys2]
        exact Finset.insert_subset hmemcells hB.keys_sub
      have hcardle : (gKeys st.g_costs).card + 1 ≤ cells.card := by
        rw [← hcard2]
        exact Finset.card_le_card hsub2
      have hng2 : ng ≤ ((gKeys st.g_costs).card + 1) * C := by
        have := Nat.add_le_add hg hcost
        calc ng ≤ (gKeys st.g_costs).card * C + C := this
          _ = ((gKeys st.g_costs).card + 1) * C := by ring
      have hngcells : ng ≤ cells.card * C :=
        le_trans hng2 (Nat.mul_le_mul_right C hcardle)
      refine ⟨⟨hsub2, ?_, ?_⟩, ?_, ?_⟩
      · intro p v hp
        rw [hcard2]
        simp only [alookup_cons] at hp
        by_cases hpe : npos = p
        · rw [if_pos hpe] at hp
          cases hp
          exact hng2
        · rw [if_neg hpe] at hp
          have := hB.val_le p v hp
          have hmono : (gKeys st.g_costs).card * C ≤ ((gKeys st.g_costs).card + 1) * C :=
            Nat.mul_le_mul_right C (Nat.le_succ _)
          omega
      · intro nd hnd
        rw [hcard2]
        have hmono : (gKeys st.g_costs).card * C ≤ ((gKeys st.g_costs).card + 1) * C :=
          Nat.mul_le_mul_right C (Nat.le_succ _)
        rcases List.mem_cons.mp hnd with h1 | h1
        · subst h1; simp only; omega
        · have := hB.node_le nd h1; omega
      · have hsum := gSum_insert_fresh hmem ng
        have hsplit : cells.card - (gKeys st.g_costs).card =
            (cells.card - ((gKeys st.g_costs).card + 1)) + 1 := by omega
        simp only [measureA, List.length_cons, hcard2, hsum, hsplit, Nat.add_mul, one_mul]
        have hB2 : ng ≤ cells.card * C := hngcells
        omega
      · rw [hcard2]
        have hmono : (gKeys st.g_costs).card * C ≤ ((gKeys st.g_costs).card + 1) * C :=
          Nat.mul_le_mul_right C (Nat.le_succ _)
        omega


/-- Folding relaxations over neighbors keeps bounds and never increases
the measure. -/
theorem relaxFold_bound {A : GridAdapterM} {cells : Finset Pos} {C : Nat}
    (hOB : OracleBounds A cells C) {endP : Pos} {cur : Node} :
    ∀ (ns : List Pos) (st : AState),
      (∀ n ∈ ns, n ∈ A.get_neighbors cur.pos) →
      BoundInv cells C st →
      cur.g_cost ≤ (gKeys st.g_costs).card * C →
      BoundInv cells C (ns.foldl (relaxNeighbor A endP cur) st) ∧
      measureA cells C (ns.foldl (relaxNeighbor A endP cur) st) ≤ measureA cells C st := by
  intro ns
  induction ns with
  | nil => intro st _ hB _; exact ⟨hB, le_refl _⟩
  | cons n rest ih =>
    intro st hmem hB hg
    simp only [List.foldl_cons]
    obtain ⟨hB2, hle2, hg2⟩ :=
      relaxNeighbor_bound hOB hB (hmem n (List.mem_cons_self n rest)) hg
    obtain ⟨hB3, hle3⟩ :=
      ih _ (fun x hx => hmem x (List.mem_cons_of_mem _ hx)) hB2 hg2
    exact ⟨hB3, le_trans hle3 hle2⟩


/-- One full loop iteration strictly decreases the measure. -/
theorem iteration_decrease {A : GridAdapterM} {cells : Finset Pos} {C : Nat}
    (hOB : OracleBounds A cells C) {endP : Pos} {st : AState} {cur : Node}
    {rest : List Node}
    (hB : BoundInv cells C st)
    (hpop : popMax st.open_set = some (cur, rest)) :
    BoundInv cells C (relaxAll A endP cur { st with open_set := rest }) ∧
    measureA cells C (relaxAll A endP cur { st with open_set := rest }) <
      measureA cells C st := by
  have hB1 : BoundInv cells C { st with open_set := rest } :=
    ⟨hB.keys_sub, hB.val_le, fun nd hnd => hB.node_le nd (popMax_rest_mem hpop nd hnd)⟩
  have hg : cur.g_cost ≤ (gKeys st.g_costs).card * C :=
    hB.node_le cur (popMax_mem hpop)
  obtain ⟨hB2, hle⟩ :=
    relaxFold_bound hOB (A.get_neighbors cur.pos) _ (fun _ hx => hx) hB1 hg
  refine ⟨hB2, ?_⟩
  have hlen := popMax_length hpop
  have hmeas : measureA cells C { st with open_set := rest } + 1 = measureA cells C st := by
    simp only [measureA]
    omega
  unfold relaxAll
  omega


/-- With fuel above the measure, the loop returns none exactly when it
runs the open set dry without popping the goal. -/
theorem astarLoop_none_iff_exhausts {A : GridAdapterM} {cells : Finset Pos} {C : Nat}
    (hOB : OracleBounds A cells C) (endP : Pos) :
    ∀ (fuel : Nat) (st : AState), BoundInv cells C st → measureA cells C st < fuel →
      (astarLoop A endP fuel st = none ↔ Exhausts A endP st) := by
  intro fuel
  induction fuel with
  | zero => intro st _ h; exact absurd h (Nat.not_lt_zero _)
  | succ fuel ih =>
    intro st hB hm
    rw [astarLoop]
    cases hpop : popMax st.open_set with
    | none =>
      dsimp only
      constructor
      · intro _; exact Exhausts.empty st hpop
      · intro _; rfl
    | some pr =>
      rcases pr with ⟨cur, rest⟩
      dsimp only
      by_cases he : cur.pos = endP
      · rw [if_pos he]
        constructor
        · intro h; cases h
        · intro hex
          cases hex with
          | empty _ h2 => rw [hpop] at h2; cases h2
          | step _ cur2 rest2 h2 hne2 _ =>
            rw [hpop] at h2
            simp only [Option.some.injEq, Prod.mk.injEq] at h2
            exact absurd (h2.1 ▸ he) hne2
      · rw [if_neg he]
        obtain ⟨hB2, hlt⟩ := @iteration_decrease A cells C hOB endP st cur rest hB hpop
        have hm2 : measureA cells C
            (relaxAll A endP cur { st with open_set := rest }) < fuel := by omega
        have hiff := ih _ hB2 hm2
        constructor
        · intro h
          exact Exhausts.step st cur rest hpop he (hiff.mp h)
        · intro hex
          cases hex with
          | empty _ h2 => rw [hpop] at h2; cases h2
          | step _ cur2 rest2 h2 hne2 hex2 =>
            rw [hpop] at h2
            simp only [Option.some.injEq, Prod.mk.injEq] at h2
            obtain ⟨h3, h4⟩ := h2
            subst h3
            subst h4
            exact hiff.mpr hex2


/-- Size bounds hold at the initial state when the start is valid. -/
theorem boundInv_init {A : GridAdapterM} {cells : Finset Pos} {C : Nat}
    (hOB : OracleBounds A cells C) {start endP : Pos}
    (hs : A.is_valid_position start = true) :
    BoundInv cells C (astarInit start endP) := by
  have hmem : start ∈ cells := hOB.valid_mem start hs
  have hkeys : gKeys (astarInit start endP).g_costs = {start} := by
    simp [astarInit, gKeys]
  refine ⟨?_, ?_, ?_⟩
  · rw [hkeys]
    exact Finset.singleton_subset_iff.mpr hmem
  · intro p v hp
    simp only [astarInit, alookup_cons] at hp
    by_cases h : start = p
    · rw [if_pos h] at hp
      cases hp
      exact Nat.zero_le _
    · rw [if_neg h] at hp
      cases hp
  · intro nd hnd
    simp only [astarInit, List.mem_singleton] at hnd
    subst hnd
    exact Nat.zero_le _


/-- C3.  The adapter-based A* returns none exactly when the start or
goal is invalid under the oracle, or the open set exhausts without
reaching the goal; otherwise it returns a path, and a valid start equal
to the goal yields the single-cell path. -/
theorem C3_astar_none_iff (A : GridAdapterM) (cells : Finset Pos) (C : Nat)
    (hOB : OracleBounds A cells C) (s e : Pos) (fuel : Nat)
    (hfuel : measureA cells C (astarInit s e) < fuel) :
    (¬ (A.is_valid_position s = true ∧ A.is_valid_position e = true) →
      a_star_with_adapter A fuel s e = none) ∧
    (A.is_valid_position s = true → A.is_valid_position e = true →
      (a_star_with_adapter A fuel s e = none ↔ Exhausts A e (astarInit s e))) ∧
    (A.is_valid_position s = true → s = e →
      a_star_with_adapter A fuel s e = some [s]) := by
  refine ⟨?_, ?_, ?_⟩
  · intro hinv
    unfold a_star_with_adapter
    rw [if_neg hinv]
  · intro hs he
    unfold a_star_with_adapter
    rw [if_pos ⟨hs, he⟩]
    exact astarLoop_none_iff_exhausts hOB e fuel _ (boundInv_init hOB hs) hfuel
  · intro hs hse
    subst hse
    unfold a_star_with_adapter
    rw [if_pos ⟨hs, hs⟩]
    cases fuel with
    | zero => exact absurd hfuel (Nat.not_lt_zero _)
    | succ fuel =>
      rw [astarLoop]
      have hpop : popMax (astarInit s s).open_set =
          some (⟨s, heuristic s s, 0⟩, ([] : List Node)) := rfl
      rw [hpop]
      dsimp only
      rw [if_pos rfl]
      rfl


theorem validExpr_mem_gridCells (g : Grid) (p : Pos)
    (h : (decide (p.1 < g.width) && decide (p.2 < g.height) && ! g.is_obstacle p.1 p.2) = true) :
    p ∈ gridCells g := by
  have hf : g.is_obstacle p.1 p.2 = false := (validExpr_iff g p).mp h
  obtain ⟨h1, h2⟩ := is_obstacle_false_bounds hf
  exact Finset.mem_product.mpr ⟨Finset.mem_range.mpr h1, Finset.mem_range.mpr h2⟩


theorem oracleBounds_cardinal (g : Grid) :
    OracleBounds (RectangularCardinalAdapter g) (gridCells g) 1 := by
  refine ⟨?_, ?_, ?_⟩
  · intro c n hn
    exact validExpr_mem_gridCells g n ((adapterOK_cardinal g).neighbors_valid c n hn)
  · intro p hp
    exact validExpr_mem_gridCells g p hp
  · intro c n
    exact le_refl 1


/-- Witness for C3 at concrete inputs: a 2-by-2 empty grid under the
cardinal adapter, start equal to goal. -/
theorem C3_astar_none_iff_witness :
    measureA (gridCells (Grid.new 2 2)) 1 (astarInit (0, 0) (0, 0)) < 1000 ∧
    ((¬ ((RectangularCardinalAdapter (Grid.new 2 2)).is_valid_position (0, 0) = true ∧
        (RectangularCardinalAdapter (Grid.new 2 2)).is_valid_position (0, 0) = true) →
      a_star_with_adapter (RectangularCardinalAdapter (Grid.new 2 2)) 1000 (0, 0) (0, 0) = none) ∧
    ((RectangularCardinalAdapter (Grid.new 2 2)).is_valid_position (0, 0) = true →
      (RectangularCardinalAdapter (Grid.new 2 2)).is_valid_position (0, 0) = true →
      (a_star_with_adapter (RectangularCardinalAdapter (Grid.new 2 2)) 1000 (0, 0) (0, 0) = none ↔
        Exhausts (RectangularCardinalAdapter (Grid.new 2 2)) (0, 0) (astarInit (0, 0) (0, 0)))) ∧
    ((RectangularCardinalAdapter (Grid.new 2 2)).is_valid_position (0, 0) = true →
      (0, 0) = ((0, 0) : Pos) →
      a_star_with_adapter (RectangularCardinalAdapter (Grid.new 2 2)) 1000 (0, 0) (0, 0) =
        some [(0, 0)])) :=
  ⟨by decide,
   C3_astar_none_iff (RectangularCardinalAdapter (Grid.new 2 2)) (gridCells (Grid.new 2 2)) 1
     (oracleBounds_cardinal (Grid.new 2 2)) (0, 0) (0, 0) 1000 (by decide)⟩


/-- C2 counterexample.  On an empty grid the cardinal adapter charges 1
for the adjacent step from the origin to its south neighbor, not the 10
the claim states; the hexagonal adapter likewise charges 1. -/
theorem C2_counterexample_costs :
    (RectangularCardinalAdapter (Grid.new 11 11)).movement_cost (0, 0) (0, 1) = 1 ∧
    (HexagonalAdapter (Grid.new 11 11) true).movement_cost (0, 0) (1, 0) = 1 ∧
    ¬ ((RectangularCardinalAdapter (Grid.new 11 11)).movement_cost (0, 0) (0, 1) = 10) := by
  decide


set_option maxRecDepth 100000 in
/-- C2 amended.  The cardinal adapter costs 1 per step, the diagonal
adapter 10 orthogonal and 14 diagonal, the hexagonal adapter 1 per
step; consequently on an empty grid the cardinal path from the origin
to (10, 10) has 20 steps with total cost 20, while the diagonal path
has 10 steps with total cost 140. -/
theorem C2_step_costs :
    (∀ (g : Grid) (p q : Pos), (RectangularCardinalAdapter g).movement_cost p q = 1) ∧
    (∀ (g : Grid) (p q : Pos), (RectangularDiagonalAdapter g).movement_cost p q =
      if p.1 ≠ q.1 ∧ p.2 ≠ q.2 then 14 else 10) ∧
    (∀ (g : Grid) (ft : Bool) (p q : Pos), (HexagonalAdapter g ft).movement_cost p q = 1) ∧
    ((a_star_with_adapter (RectangularCardinalAdapter (Grid.new 11 11)) 100000 (0, 0) (10, 10)).map
      (fun p => (p.length, pathCost (RectangularCardinalAdapter (Grid.new 11 11)) p)) =
      some (21, 20)) ∧
    ((a_star_with_adapter (RectangularDiagonalAdapter (Grid.new 11 11)) 100000 (0, 0) (10, 10)).map
      (fun p => (p.length, pathCost (RectangularDiagonalAdapter (Grid.new 11 11)) p)) =
      some (11, 140)) := by
  refine ⟨fun g p q => rfl, ?_, fun g ft p q => rfl, by decide, by decide⟩
  intro g p q
  show (if 0 < max p.1 q.1 - min p.1 q.1 ∧ 0 < max p.2 q.2 - min p.2 q.2 then 14 else 10) = _
  have e1 : (0 < max p.1 q.1 - min p.1 q.1) ↔ p.1 ≠ q.1 := by omega
  have e2 : (0 < max p.2 q.2 - min p.2 q.2) ↔ p.2 ≠ q.2 := by omega
  simp only [e1, e2]


theorem get?_set_self {α : Type} (l : List α) (i : Nat) (x : α) (h : i < l.length) :
    (l.set i x).get? i = some x := by
  induction l generalizing i with
  | nil => simp at h
  | cons a rest ih =>
    cases i with
    | zero => rfl
    | succ i =>
      simp only [List.set_cons_succ, List.get?_cons_succ]
      exact ih i (by simpa using h)


theorem set_set_self {α : Type} (l : List α) (i : Nat) (x y : α) :
    (l.set i x).set i y = l.set i y := by
  induction l generalizing i with
  | nil => rfl
  | cons a rest ih =>
    cases i with
    | zero => rfl
    | succ i =>
      simp only [List.set_cons_succ]
      rw [ih]


theorem set_get?_self {α : Type} (l : List α) (i : Nat) (x : α)
    (h : l.get? i = some x) : l.set i x = l := by
  induction l generalizing i with
  | nil => cases h
  | cons a rest ih =>
    cases i with
    | zero =>
      simp only [List.get?_cons_zero] at h
      cases h
      rfl
    | succ i =>
      simp only [List.get?_cons_succ] at h
      simp only [List.set_cons_succ]
      rw [ih i h]


theorem get?_some_lt {α : Type} {l : List α} {i : Nat} {x : α}
    (h : l.get? i = some x) : i < l.length := by
  induction l generalizing i with
  | nil => cases h
  | cons a rest ih =>
    cases i with
    | zero => simp
    | succ i =>
      simp only [List.get?_cons_succ] at h
      have := ih h
      simpa using Nat.succ_lt_succ this


/-- C5.  For a MoveCommand addressing a live agent whose id matches and
whose captured old position is the current position, execute followed
by undo restores the agent list exactly, and undo followed by a replay
of the same move restores the post-execute state. -/
theorem C5_move_undo_inverse (agents : List AgentD) (cmd : MoveCommand)
    {ag : AgentD}
    (hget : agents.get? cmd.agent_id = some ag)
    (hid : ag.id = cmd.agent_id)
    (hold : cmd.old_pos = ag.pos) :
    MoveCommand.undo cmd (MoveCommand.execute cmd agents) = agents ∧
    MoveCommand.execute cmd (MoveCommand.undo cmd (MoveCommand.execute cmd agents)) =
      MoveCommand.execute cmd agents := by
  have hlen : cmd.agent_id < agents.length := get?_some_lt hget
  set m : AgentD := { ag with pos := cmd.new_pos, fuel := ag.fuel - 1 } with hm
  have hexec : MoveCommand.execute cmd agents = agents.set cmd.agent_id m := by
    unfold MoveCommand.execute
    rw [hget]
    dsimp only
    rw [if_pos hid]
  have hlen2 : cmd.agent_id < (agents.set cmd.agent_id m).length := by
    simpa using hlen
  have hget2 : (agents.set cmd.agent_id m).get? cmd.agent_id = some m :=
    get?_set_self agents cmd.agent_id m hlen
  have hmid : m.id = cmd.agent_id := hid
  have hm2 : ({ m with pos := cmd.old_pos, fuel := m.fuel + 1 } : AgentD) = ag := by
    cases ag
    simp only [hm, hold]
    simp [sub_add_cancel]
  have hundo : MoveCommand.undo cmd (agents.set cmd.agent_id m) = agents := by
    unfold MoveCommand.undo
    rw [hget2]
    dsimp only
    rw [if_pos hmid, hm2, set_set_self, set_get?_self agents cmd.agent_id ag hget]
  constructor
  · rw [hexec, hundo]
  · rw [hexec, hundo, ← hexec]


/-- Witness for C5 at concrete inputs. -/
theorem C5_move_undo_inverse_witness :
    ([AgentD.new 0 (5, 5) [] 150].get? 0 = some (AgentD.new 0 (5, 5) [] 150) ∧
      (AgentD.new 0 (5, 5) [] 150).id = 0 ∧
      ((5 : ℚ), (5 : ℚ)) = (AgentD.new 0 (5, 5) [] 150).pos) ∧
    (MoveCommand.undo ⟨0, (5, 5), (7, 7)⟩
        (MoveCommand.execute ⟨0, (5, 5), (7, 7)⟩ [AgentD.new 0 (5, 5) [] 150]) =
      [AgentD.new 0 (5, 5) [] 150] ∧
    MoveCommand.execute ⟨0, (5, 5), (7, 7)⟩
        (MoveCommand.undo ⟨0, (5, 5), (7, 7)⟩
          (MoveCommand.execute ⟨0, (5, 5), (7, 7)⟩ [AgentD.new 0 (5, 5) [] 150])) =
      MoveCommand.execute ⟨0, (5, 5), (7, 7)⟩ [AgentD.new 0 (5, 5) [] 150]) :=
  ⟨⟨rfl, rfl, rfl⟩,
   C5_move_undo_inverse [AgentD.new 0 (5, 5) [] 150] ⟨0, (5, 5), (7, 7)⟩ rfl rfl rfl⟩


/-- C6.  A flushed or undone command whose agent id does not index a
live agent, or whose indexed agent carries a different id, is silently
skipped: the agent list is left entirely unchanged. -/
theorem C6_stale_command_skipped (agents : List AgentD) (cmd : MoveCommand)
    (hstale : agents.get? cmd.agent_id = none ∨
      ∃ ag, agents.get? cmd.agent_id = some ag ∧ ag.id ≠ cmd.agent_id) :
    MoveCommand.execute cmd agents = agents ∧
    MoveCommand.undo cmd agents = agents := by
  rcases hstale with h | ⟨ag, hget, hid⟩
  · constructor
    · unfold MoveCommand.execute
      rw [h]
    · unfold MoveCommand.undo
      rw [h]
  · constructor
    · unfold MoveCommand.execute
      rw [hget]
      dsimp only
      rw [if_neg hid]
    · unfold MoveCommand.undo
      rw [hget]
      dsimp only
      rw [if_neg hid]


/-- Witness for C6 at concrete inputs: an empty agent list and a command
addressing index 5. -/
theorem C6_stale_command_skipped_witness :
    (([] : List AgentD).get? 5 = none ∨
      ∃ ag, ([] : List AgentD).get? 5 = some ag ∧ ag.id ≠ 5) ∧
    (MoveCommand.execute ⟨5, (0, 0), (1, 1)⟩ ([] : List AgentD) = [] ∧
     MoveCommand.undo ⟨5, (0, 0), (1, 1)⟩ ([] : List AgentD) = []) :=
  ⟨Or.inl rfl, C6_stale_command_skipped [] ⟨5, (0, 0), (1, 1)⟩ (Or.inl rfl)⟩


theorem ratFloorI_eq_floor (q : ℚ) : ratFloorI q = Int.floor q :=
  Rat.floor_def.symm


theorem cellVal_mem_or_zero (grid : List (List ℚ)) (gx gy : Nat) :
    cellVal grid gx gy = 0 ∨ ∃ row ∈ grid, cellVal grid gx gy ∈ row := by
  unfold cellVal
  simp only [List.getD_eq_getElem?_getD]
  cases hg : grid[gy]? with
  | none => left; simp
  | some row =>
    simp only [Option.getD_some]
    cases hx : row[gx]? with
    | none => left; simp
    | some c =>
      right
      refine ⟨row, ?_, ?_⟩
      · exact List.getElem?_mem hg
      · simp only [Option.getD_some]
        exact List.getElem?_mem hx


theorem cellVal_bounds_of_inRange {grid : List (List ℚ)} (hin : InRange grid)
    (gx gy : Nat) : 0 ≤ cellVal grid gx gy ∧ cellVal grid gx gy ≤ MAX_INTENSITY := by
  rcases cellVal_mem_or_zero grid gx gy with h | ⟨row, hrow, hmem⟩
  · rw [h]
    exact ⟨le_refl 0, by norm_num [MAX_INTENSITY]⟩
  · exact hin row hrow _ hmem


theorem cellVal_update (grid : List (List ℚ)) (dt : ℚ) (gx gy : Nat) :
    cellVal (pheromoneUpdate grid dt) gx gy = decayStep dt (cellVal grid gx gy) := by
  unfold cellVal pheromoneUpdate
  have hz : decayStep dt 0 = 0 := by simp [decayStep]
  simp only [List.getD_eq_getElem?_getD, List.getElem?_map]
  cases hrow : grid[gy]? with
  | none => simp [hz]
  | some row =>
    simp only [Option.map_some', Option.getD_some, List.getElem?_map]
    cases hc : row[gx]? with
    | none => simp [hz]
    | some c => simp


theorem getD_row_mem_or_nil (grid : List (List ℚ)) (gy : Nat) :
    grid.getD gy [] ∈ grid ∨ grid.getD gy [] = ([] : List ℚ) := by
  simp only [List.getD_eq_getElem?_getD]
  cases hg : grid[gy]? with
  | none => right; rfl
  | some r =>
    left
    simpa using List.getElem?_mem hg


theorem decayStep_le (dt c : ℚ) :
    decayStep dt c ≤ max 0 (c - DECAY_RATE * dt) := by
  unfold decayStep
  by_cases hc : 0 < c
  · rw [if_pos hc]
    by_cases hneg : c - DECAY_RATE * dt < 0
    · rw [if_pos hneg]
      exact le_max_left 0 _
    · rw [if_neg hneg]
      exact le_max_right 0 _
  · rw [if_neg hc]
    have : c ≤ 0 := le_of_not_lt hc
    exact le_trans this (le_max_left 0 _)


theorem max_decay_comp (x a b : ℚ) (hb : 0 ≤ b) :
    max 0 (max 0 (x - a) - b) = max 0 (x - (a + b)) := by
  rcases le_total (x - a) 0 with h1 | h1
  · rw [max_eq_left h1, zero_sub, max_eq_left (neg_nonpos.mpr hb),
      max_eq_left (by linarith : x - (a + b) ≤ 0)]
  · rw [max_eq_right h1, sub_sub]


/-- C7.  Every cell of the pheromone field stays within the zero to
MAX band under deposits and decay updates, and after a sequence of
decay-only updates of non-negative durations summing to T a cell is at
most max 0 (start − DECAY·T). -/
theorem C7_pheromone_bounds :
    (∀ grid pos dt mode, 0 ≤ dt → InRange grid → InRange (deposit grid pos dt mode)) ∧
    (∀ grid dt, 0 ≤ dt → InRange grid → InRange (pheromoneUpdate grid dt)) ∧
    (∀ grid (dts : List ℚ), (∀ d ∈ dts, 0 ≤ d) → ∀ gx gy,
      cellVal (dts.foldl pheromoneUpdate grid) gx gy ≤
        max 0 (cellVal grid gx gy - DECAY_RATE * dts.sum)) := by
  refine ⟨?_, ?_, ?_⟩
  · -- deposit keeps the band
    intro grid pos dt mode hdt hin
    have heq : deposit grid pos dt mode =
        if (screen_to_grid pos.1 pos.2 mode).2 < grid.length ∧
            (screen_to_grid pos.1 pos.2 mode).1 < (grid.getD 0 []).length then
          grid.set (screen_to_grid pos.1 pos.2 mode).2
            ((grid.getD (screen_to_grid pos.1 pos.2 mode).2 []).set
              (screen_to_grid pos.1 pos.2 mode).1
              (min (cellVal grid (screen_to_grid pos.1 pos.2 mode).1
                      (screen_to_grid pos.1 pos.2 mode).2 + AGENT_EMISSION * dt)
                MAX_INTENSITY))
        else grid := rfl
    rw [heq]
    by_cases hb : (screen_to_grid pos.1 pos.2 mode).2 < grid.length ∧
        (screen_to_grid pos.1 pos.2 mode).1 < (grid.getD 0 []).length
    · rw [if_pos hb]
      intro row hrow c hc
      rcases List.mem_or_eq_of_mem_set hrow with hrow2 | hrow2
      · exact hin row hrow2 c hc
      · subst hrow2
        rcases List.mem_or_eq_of_mem_set hc with hc2 | hc2
        · -- untouched entry of the touched row
          rcases getD_row_mem_or_nil grid (screen_to_grid pos.1 pos.2 mode).2 with h | h
          · exact hin _ h c hc2
          · rw [h] at hc2; cases hc2
        · subst hc2
          have h0 := (cellVal_bounds_of_inRange hin (screen_to_grid pos.1 pos.2 mode).1
            (screen_to_grid pos.1 pos.2 mode).2).1
          have hemit : (0 : ℚ) ≤ AGENT_EMISSION * dt :=
            mul_nonneg (by norm_num [AGENT_EMISSION]) hdt
          exact ⟨le_min (by linarith) (by norm_num [MAX_INTENSITY]), min_le_right _ _⟩
    · rw [if_neg hb]
      exact hin
  · -- decay keeps the band
    intro grid dt hdt hin
    intro row hrow c hc
    unfold pheromoneUpdate at hrow
    obtain ⟨row0, hrow0, hmap⟩ := List.mem_map.mp hrow
    subst hmap
    obtain ⟨c0, hc0, hmapc⟩ := List.mem_map.mp hc
    subst hmapc
    obtain ⟨hlo, hhi⟩ := hin row0 hrow0 c0 hc0
    unfold decayStep
    by_cases hpos : 0 < c0
    · rw [if_pos hpos]
      by_cases hneg : c0 - DECAY_RATE * dt < 0
      · rw [if_pos hneg]
        exact ⟨le_refl 0, by norm_num [MAX_INTENSITY]⟩
      · rw [if_neg hneg]
        have hdr : 0 ≤ DECAY_RATE * dt := by
          have : (0 : ℚ) ≤ 5 := by norm_num
          simpa [DECAY_RATE] using mul_nonneg this hdt
        exact ⟨le_of_not_lt hneg, by linarith⟩
    · rw [if_neg hpos]
      exact ⟨hlo, hhi⟩
  · -- decay-only runs obey the linear envelope
    intro grid dts
    induction dts generalizing grid with
    | nil =>
      intro _ gx gy
      simp only [List.foldl_nil, List.sum_nil, mul_zero, sub_zero]
      exact le_max_right 0 _
    | cons d rest ih =>
      intro hdts gx gy
      simp only [List.foldl_cons, List.sum_cons]
      have hd : 0 ≤ d := hdts d (List.mem_cons_self d rest)
      have hrest : ∀ x ∈ rest, 0 ≤ x := fun x hx => hdts x (List.mem_cons_of_mem _ hx)
      have h1 := ih (pheromoneUpdate grid d) hrest gx gy
      have h2 : cellVal (pheromoneUpdate grid d) gx gy ≤
          max 0 (cellVal grid gx gy - DECAY_RATE * d) := by
        rw [cellVal_update]
        exact decayStep_le d _
      have hsum : 0 ≤ rest.sum := List.sum_nonneg hrest
      have h3 : max 0 (cellVal (pheromoneUpdate grid d) gx gy - DECAY_RATE * rest.sum) ≤
          max 0 (max 0 (cellVal grid gx gy - DECAY_RATE * d) - DECAY_RATE * rest.sum) :=
        max_le_max (le_refl 0) (sub_le_sub_right h2 _)
      have h4 : max 0 (max 0 (cellVal grid gx gy - DECAY_RATE * d) - DECAY_RATE * rest.sum) =
          max 0 (cellVal grid gx gy - DECAY_RATE * (d + rest.sum)) := by
        rw [max_decay_comp _ _ _ (mul_nonneg (by norm_num [DECAY_RATE]) hsum), mul_add]
      calc cellVal (rest.foldl pheromoneUpdate (pheromoneUpdate grid d)) gx gy ≤
            max 0 (cellVal (pheromoneUpdate grid d) gx gy - DECAY_RATE * rest.sum) := h1
        _ ≤ _ := h3
        _ = _ := h4


/-- Witness for C7 at concrete inputs: a 2-by-2 zero field. -/
theorem C7_pheromone_bounds_witness :
    (0 : ℚ) ≤ 1 ∧ InRange (pheromoneInit 2 2) ∧
    InRange (deposit (pheromoneInit 2 2) (5, 5) 1 GridMode.Cardinal) := by
  have hz : InRange (pheromoneInit 2 2) := by
    intro row hrow c hc
    have hr : row = List.replicate 2 (0 : ℚ) := by
      simpa [pheromoneInit] using List.eq_of_mem_replicate hrow
    subst hr
    have hc0 : c = 0 := List.eq_of_mem_replicate hc
    subst hc0
    exact ⟨le_refl 0, by norm_num [MAX_INTENSITY]⟩
  exact ⟨by norm_num, hz,
    C7_pheromone_bounds.1 (pheromoneInit 2 2) (5, 5) 1 GridMode.Cardinal (by norm_num) hz⟩


/-- C8.  The stigmergy gate blocks exactly the moves into a different
cell whose pheromone intensity exceeds the threshold: it then returns
none and fires a ProximityAlert at the sentinel id 9999.  A target in
the current cell is never gated, an unblocked target passes through
unchanged, and an absent inner target stays absent. -/
theorem C8_stigmergy_gate (grid : List (List ℚ)) (mode : GridMode)
    (pos target : Vec2) :
    (screen_to_grid target.1 target.2 mode ≠ screen_to_grid pos.1 pos.2 mode →
      (screen_to_grid target.1 target.2 mode).2 < grid.length →
      (screen_to_grid target.1 target.2 mode).1 < (grid.getD 0 []).length →
      DANGER_THRESHOLD < cellVal grid (screen_to_grid target.1 target.2 mode).1
          (screen_to_grid target.1 target.2 mode).2 →
      IndirectGateTarget grid mode pos (some target) =
        (none, [AgentEvent.ProximityAlert 9999])) ∧
    (screen_to_grid target.1 target.2 mode = screen_to_grid pos.1 pos.2 mode →
      IndirectGateTarget grid mode pos (some target) = (some target, [])) ∧
    (is_blocked grid (screen_to_grid target.1 target.2 mode).1
        (screen_to_grid target.1 target.2 mode).2 = false →
      IndirectGateTarget grid mode pos (some target) = (some target, [])) ∧
    IndirectGateTarget grid mode pos none = (none, []) := by
  refine ⟨?_, ?_, ?_, rfl⟩
  · intro hne hb2 hb1 hth
    have hdiff : (screen_to_grid target.1 target.2 mode).1 ≠
        (screen_to_grid pos.1 pos.2 mode).1 ∨
        (screen_to_grid target.1 target.2 mode).2 ≠
        (screen_to_grid pos.1 pos.2 mode).2 := by
      by_contra hcon
      push_neg at hcon
      exact hne (Prod.ext hcon.1 hcon.2)
    have hblk : is_blocked grid (screen_to_grid target.1 target.2 mode).1
        (screen_to_grid target.1 target.2 mode).2 = true := by
      unfold is_blocked
      rw [if_pos ⟨hb2, hb1⟩]
      exact decide_eq_true hth
    unfold IndirectGateTarget
    dsimp only
    rw [if_pos hdiff, if_pos hblk]
  · intro heq
    have hsame : ¬ ((screen_to_grid target.1 target.2 mode).1 ≠
        (screen_to_grid pos.1 pos.2 mode).1 ∨
        (screen_to_grid target.1 target.2 mode).2 ≠
        (screen_to_grid pos.1 pos.2 mode).2) := by
      rw [heq]
      push_neg
      exact ⟨rfl, rfl⟩
    unfold IndirectGateTarget
    dsimp only
    rw [if_neg hsame]
  · intro hfb
    unfold IndirectGateTarget
    dsimp only
    by_cases hdiff : (screen_to_grid target.1 target.2 mode).1 ≠
        (screen_to_grid pos.1 pos.2 mode).1 ∨
        (screen_to_grid target.1 target.2 mode).2 ≠
        (screen_to_grid pos.1 pos.2 mode).2
    · rw [if_pos hdiff, hfb]
      rfl
    · rw [if_neg hdiff]


/-- Witness for C8 at concrete inputs: a blocked far cell and an absent
inner target. -/
theorem C8_stigmergy_gate_witness :
    IndirectGateTarget [[1, 0], [0, 0]] GridMode.Cardinal (30, 30) (some (5, 5)) =
      (none, [AgentEvent.ProximityAlert 9999]) ∧
    IndirectGateTarget [[1, 0], [0, 0]] GridMode.Cardinal (30, 30) none = (none, []) := by
  have hts : screen_to_grid ((5, 5) : Vec2).1 ((5, 5) : Vec2).2 GridMode.Cardinal = (0, 0) := by
    show (natFloorCast ((5 : ℚ) / CELL_SIZE), natFloorCast ((5 : ℚ) / CELL_SIZE)) = (0, 0)
    unfold natFloorCast
    rw [ratFloorI_eq_floor]
    norm_num [CELL_SIZE]
  have hcs : screen_to_grid ((30, 30) : Vec2).1 ((30, 30) : Vec2).2 GridMode.Cardinal =
      (1, 1) := by
    show (natFloorCast ((30 : ℚ) / CELL_SIZE), natFloorCast ((30 : ℚ) / CELL_SIZE)) = (1, 1)
    unfold natFloorCast
    rw [ratFloorI_eq_floor]
    norm_num [CELL_SIZE]
  refine ⟨?_, (C8_stigmergy_gate [[1, 0], [0, 0]] GridMode.Cardinal (30, 30) (5, 5)).2.2.2⟩
  apply (C8_stigmergy_gate [[1, 0], [0, 0]] GridMode.Cardinal (30, 30) (5, 5)).1
  · rw [hts, hcs]
    decide
  · rw [hts]
    decide
  · rw [hts]
    decide
  · rw [hts]
    show DANGER_THRESHOLD < cellVal [[1, 0], [0, 0]] 0 0
    norm_num [cellVal, DANGER_THRESHOLD]


/-! Evaluation lemmas for the agent update. -/

theorem updateD_id (a : AgentD) (dt : ℚ) : ((a.update dt).1).id = a.id := by
  unfold AgentD.update
  dsimp only
  split_ifs <;> rfl


theorem updateD_pos (a : AgentD) (dt : ℚ) : ((a.update dt).1).pos = a.pos := by
  unfold AgentD.update
  dsimp only
  split_ifs <;> rfl


theorem updateD_events_sub (a : AgentD) (dt : ℚ) :
    ∀ ev ∈ (a.update dt).2, ev = AgentEvent.OutOfFuel ∨ ev = AgentEvent.Finished := by
  intro ev hev
  unfold AgentD.update at hev
  dsimp only at hev
  split_ifs at hev <;> simp_all


theorem updateD_velocity_zero (a : AgentD) (dt : ℚ) (h : a.fuel ≤ 0) :
    ((a.update dt).1).velocity = (0, 0) := by
  unfold AgentD.update
  dsimp only
  rw [if_pos h]
  split_ifs <;> rfl


theorem updateD_positive_nopath (a : AgentD) (dt : ℚ) (h1 : 0 < a.fuel)
    (h2 : ¬ a.current_waypoint < a.path.length) :
    a.update dt = ({ a with current_step_size := a.speed * dt }, []) := by
  unfold AgentD.update
  dsimp only
  rw [if_neg (not_le.mpr h1), dif_neg h2]


theorem updateD_band (a : AgentD) (dt : ℚ) (h1 : a.fuel ≤ 0) (h2 : -1 < a.fuel) :
    a.update dt =
      ({ a with current_step_size := a.speed * dt, velocity := (0, 0), fuel := -10 },
       [AgentEvent.OutOfFuel]) := by
  unfold AgentD.update
  dsimp only
  rw [if_pos h1, if_pos h2]


theorem updateD_depleted (a : AgentD) (dt : ℚ) (h1 : a.fuel ≤ -1) :
    a.update dt =
      ({ a with current_step_size := a.speed * dt, velocity := (0, 0) }, []) := by
  unfold AgentD.update
  dsimp only
  rw [if_pos (by linarith : a.fuel ≤ 0), if_neg (by linarith : ¬ (-1 : ℚ) < a.fuel)]


theorem updateD_positive_fuel (a : AgentD) (dt : ℚ) (h : 0 < a.fuel) :
    ((a.update dt).1).fuel = a.fuel ∧
    ((a.update dt).2 = [] ∨ (a.update dt).2 = [AgentEvent.Finished]) := by
  unfold AgentD.update
  dsimp only
  rw [if_neg (not_le.mpr h)]
  split_ifs <;> simp


/-- C1 amended.  The trabalho-11 coordinator ticks evaluate no pairwise
distance predicate: the direta tick emits no CollisionHit and no
ProximityAlert whatever the agent configuration, and the indireta
stigmergy gate, the only proximity source of that build, emits only
ProximityAlert with the sentinel id 9999. -/
theorem C1_no_collision_events :
    (∀ (normf : Vec2 → Vec2) (vf : AgentRvoState → List AgentRvoState → Vec2)
        (dt : ℚ) (agents : List AgentD) (i j : Nat),
      (i, AgentEvent.CollisionHit j) ∉ (diretaTick normf vf dt agents).2 ∧
      (i, AgentEvent.ProximityAlert j) ∉ (diretaTick normf vf dt agents).2) ∧
    (∀ (grid : List (List ℚ)) (mode : GridMode) (pos : Vec2) (inner : Option Vec2)
        (ev : AgentEvent), ev ∈ (IndirectGateTarget grid mode pos inner).2 →
      ev = AgentEvent.ProximityAlert 9999) := by
  constructor
  · intro normf vf dt agents i j
    have hsub : ∀ pe ∈ (diretaTick normf vf dt agents).2,
        pe.2 = AgentEvent.OutOfFuel ∨ pe.2 = AgentEvent.Finished := by
      intro pe hpe
      have hev2 : (diretaTick normf vf dt agents).2 =
          (agents.map (fun a => a.update dt)).flatMap
            (fun pr => pr.2.map (fun ev => (pr.1.id, ev))) := rfl
      rw [hev2, List.mem_flatMap] at hpe
      obtain ⟨pr, hpr, hmem⟩ := hpe
      obtain ⟨ev0, hev0, heq⟩ := List.mem_map.mp hmem
      obtain ⟨a, _, hpra⟩ := List.mem_map.mp hpr
      subst hpra
      have := updateD_events_sub a dt ev0 hev0
      rw [← heq]
      simpa using this
    constructor
    · intro hmem
      rcases hsub _ hmem with h | h <;> simp at h
    · intro hmem
      rcases hsub _ hmem with h | h <;> simp at h
  · intro grid mode pos inner ev hev
    unfold IndirectGateTarget at hev
    cases inner with
    | none => simp at hev
    | some target =>
      dsimp only at hev
      split_ifs at hev <;> simp_all


/-- C1 counterexample.  Two agents closer than the sum of their
physical radii go through a whole coordinator tick that emits no event
at all; in particular neither receives a CollisionHit. -/
theorem C1_counterexample_tick :
    dist2 agColA.pos agColB.pos <
      (PHYSICAL_RADIUS + PHYSICAL_RADIUS) * (PHYSICAL_RADIUS + PHYSICAL_RADIUS) ∧
    (diretaTick normfId vfZero 1 [agColA, agColB]).2 = [] ∧
    ((0, AgentEvent.CollisionHit 1) ∉ (diretaTick normfId vfZero 1 [agColA, agColB]).2) := by
  have hA : agColA.update 1 = ({ agColA with current_step_size := agColA.speed * 1 }, []) :=
    updateD_positive_nopath agColA 1 (by norm_num [agColA]) (by norm_num [agColA])
  have hB : agColB.update 1 = ({ agColB with current_step_size := agColB.speed * 1 }, []) :=
    updateD_positive_nopath agColB 1 (by norm_num [agColB, agColA]) (by norm_num [agColB, agColA])
  have hev : (diretaTick normfId vfZero 1 [agColA, agColB]).2 = [] := by
    have hev2 : (diretaTick normfId vfZero 1 [agColA, agColB]).2 =
        ([agColA, agColB].map (fun a => a.update 1)).flatMap
          (fun pr => pr.2.map (fun ev => (pr.1.id, ev))) := rfl
    rw [hev2, List.map_cons, List.map_cons, List.map_nil, hA, hB]
    simp
  refine ⟨?_, hev, ?_⟩
  · norm_num [dist2, agColA, agColB, PHYSICAL_RADIUS]
  · rw [hev]
    simp


/-! C9: the out-of-fuel protocol. -/

theorem execute_singleton (cmd : MoveCommand) (a : AgentD) :
    MoveCommand.execute cmd [a] = [a] ∨
    MoveCommand.execute cmd [a] = [{ a with pos := cmd.new_pos, fuel := a.fuel - 1 }] := by
  unfold MoveCommand.execute
  cases hg : [a].get? cmd.agent_id with
  | none => left; rfl
  | some ag =>
    have hag : ag = a := by
      have hm : ag ∈ [a] := List.get?_mem hg
      simpa using hm
    subst hag
    dsimp only
    by_cases hid : ag.id = cmd.agent_id
    · right
      rw [if_pos hid]
      have h0 : cmd.agent_id = 0 := by
        by_contra hne
        rcases Nat.exists_eq_succ_of_ne_zero hne with ⟨n, hn⟩
        rw [hn] at hg
        simp [List.get?] at hg
      rw [h0]
      rfl
    · left
      rw [if_neg hid]


theorem C9Inv_step (aid : Nat) (st : List AgentD × List (Nat × AgentEvent))
    (op : OpD) (hinv : C9Inv aid st) (hop : ∀ cmd, op ≠ OpD.undoCmd cmd) :
    C9Inv aid (runStep st op) := by
  obtain ⟨a, h1, h2, hcase⟩ := hinv
  cases op with
  | update dt =>
    have hstep : runStep st (OpD.update dt) =
        ([(a.update dt).1],
         st.2 ++ (a.update dt).2.map (fun ev => ((a.update dt).1.id, ev))) := by
      simp [runStep, h1]
    rw [hstep]
    refine ⟨(a.update dt).1, rfl, by rw [updateD_id]; exact h2, ?_⟩
    rcases hcase with ⟨hf, hc⟩ | ⟨hf, hc⟩
    · by_cases hf0 : a.fuel ≤ 0
      · -- inside the emission band
        rw [updateD_id, h2, updateD_band a dt hf0 hf]
        right
        constructor
        · show (-10 : ℚ) ≤ -1
          norm_num
        · simp [List.count_append, hc, List.count_cons]
      · have hpos : 0 < a.fuel := lt_of_not_le hf0
        obtain ⟨hfuel, hev⟩ := updateD_positive_fuel a dt hpos
        left
        refine ⟨by rw [hfuel]; exact hf, ?_⟩
        rcases hev with h | h <;> rw [h] <;> simp [List.count_append, hc]
    · rw [updateD_depleted a dt hf]
      right
      refine ⟨hf, ?_⟩
      simpa [List.count_append] using hc
  | execCmd cmd =>
    have hstep : runStep st (OpD.execCmd cmd) = (MoveCommand.execute cmd st.1, st.2) := rfl
    rw [hstep, h1]
    rcases execute_singleton cmd a with h | h
    · rw [h]
      exact ⟨a, rfl, h2, hcase⟩
    · rw [h]
      refine ⟨_, rfl, h2, ?_⟩
      rcases hcase with ⟨hf, hc⟩ | ⟨hf, hc⟩
      · by_cases hband : -1 < a.fuel - 1
        · exact Or.inl ⟨hband, hc⟩
        · refine Or.inr ⟨le_of_not_lt hband, ?_⟩
          show st.2.count (aid, AgentEvent.OutOfFuel) ≤ 1
          omega
      · refine Or.inr ⟨?_, hc⟩
        show a.fuel - 1 ≤ -1
        linarith
  | undoCmd cmd => exact absurd rfl (hop cmd)


theorem C9Inv_fold (aid : Nat) :
    ∀ (ops : List OpD) (st : List AgentD × List (Nat × AgentEvent)),
      C9Inv aid st → (∀ cmd, OpD.undoCmd cmd ∉ ops) →
      C9Inv aid (ops.foldl runStep st) := by
  intro ops
  induction ops with
  | nil => intro st h _; exact h
  | cons op rest ih =>
    intro st h hnu
    simp only [List.foldl_cons]
    have hop : ∀ cmd, op ≠ OpD.undoCmd cmd := by
      intro cmd he
      exact hnu cmd (by rw [← he]; exact List.mem_cons_self op rest)
    exact ih _ (C9Inv_step aid st op h hop)
      (fun cmd hm => hnu cmd (List.mem_cons_of_mem _ hm))


/-- C9 amended.  In undo-free runs an agent whose fuel is above the
sentinel band at the start emits OutOfFuel at most once; agent updates
never move the agent; and once fuel is at or below zero every update
zeroes the velocity. -/
theorem C9_out_of_fuel :
    (∀ (ops : List OpD) (a : AgentD), -1 < a.fuel → NoUndo ops →
      ((runOps ops [a]).2.count (a.id, AgentEvent.OutOfFuel)) ≤ 1) ∧
    (∀ (dt : ℚ) (a : AgentD), ((a.update dt).1).pos = a.pos) ∧
    (∀ (dt : ℚ) (a : AgentD), a.fuel ≤ 0 → ((a.update dt).1).velocity = (0, 0)) := by
  refine ⟨?_, fun dt a => updateD_pos a dt, fun dt a h => updateD_velocity_zero a dt h⟩
  intro ops a hfuel hnu
  have hinit : C9Inv a.id ([a], []) :=
    ⟨a, rfl, rfl, Or.inl ⟨hfuel, by simp⟩⟩
  obtain ⟨a', _, _, hcase⟩ := C9Inv_fold a.id ops ([a], []) hinit hnu
  rcases hcase with ⟨_, hc⟩ | ⟨_, hc⟩
  · rw [show runOps ops [a] = ops.foldl runStep ([a], []) from rfl, hc]
    exact Nat.zero_le 1
  · exact hc


/-- Witness for C9 at concrete inputs. -/
theorem C9_out_of_fuel_witness :
    (-1 < (AgentD.new 0 (0, 0) [] 150).fuel ∧ NoUndo [OpD.update 1]) ∧
    ((runOps [OpD.update 1] [AgentD.new 0 (0, 0) [] 150]).2.count
      ((AgentD.new 0 (0, 0) [] 150).id, AgentEvent.OutOfFuel)) ≤ 1 := by
  have h1 : -1 < (AgentD.new 0 (0, 0) [] 150).fuel := by norm_num [AgentD.new]
  have h2 : NoUndo [OpD.update 1] := by
    intro cmd hm
    simp at hm
  exact ⟨⟨h1, h2⟩, C9_out_of_fuel.1 [OpD.update 1] (AgentD.new 0 (0, 0) [] 150) h1 h2⟩


theorem c9_exec (f : ℚ) :
    MoveCommand.execute c9cmd [c9agent f] = [c9agent (f - 1)] := rfl


theorem c9_undo (f : ℚ) :
    MoveCommand.undo c9cmd [c9agent f] = [c9agent (f + 1)] := rfl


theorem c9_update (f : ℚ) (h : 0 < f) :
    (c9agent f).update 1 = (c9agent f, []) := by
  rw [updateD_positive_nopath (c9agent f) 1 (by simpa [c9agent] using h)
    (by simp [c9agent])]
  norm_num [c9agent]


theorem c9_band : (c9agent 0).update 1 = (c9agent (-10), [AgentEvent.OutOfFuel]) := by
  rw [updateD_band (c9agent 0) 1 (by norm_num [c9agent]) (by norm_num [c9agent])]
  norm_num [c9agent]


theorem c9_tick_band (evs : List (Nat × AgentEvent)) :
    runStep ([c9agent 0], evs) (OpD.update 1)
      = ([c9agent (-10)], evs ++ [((0 : Nat), AgentEvent.OutOfFuel)]) := by
  unfold runStep
  dsimp only [List.map_cons, List.map_nil]
  rw [c9_band]
  simp [c9agent]


theorem c9_phase1 : ∀ (k : Nat) (f : ℚ) (evs : List (Nat × AgentEvent)),
    (k : ℚ) ≤ f →
    ((List.replicate k [OpD.update 1, OpD.execCmd c9cmd]).flatten).foldl runStep
      ([c9agent f], evs) = ([c9agent (f - k)], evs) := by
  intro k
  induction k with
  | zero =>
    intro f evs _
    norm_num
  | succ k ih =>
    intro f evs h
    have hk : (0 : ℚ) ≤ k := Nat.cast_nonneg k
    have hf0 : 0 < f := by
      push_cast at h
      linarith
    rw [List.replicate_succ, List.flatten_cons, List.foldl_append]
    have hstep : List.foldl runStep ([c9agent f], evs) [OpD.update 1, OpD.execCmd c9cmd]
        = ([c9agent (f - 1)], evs) := by
      simp only [List.foldl_cons, List.foldl_nil]
      have h1 : runStep ([c9agent f], evs) (OpD.update 1) = ([c9agent f], evs) := by
        unfold runStep
        dsimp only [List.map_cons, List.map_nil]
        rw [c9_update f hf0]
        simp
      rw [h1]
      show (MoveCommand.execute c9cmd [c9agent f], evs) = ([c9agent (f - 1)], evs)
      rw [c9_exec]
    rw [hstep, ih (f - 1) evs (by push_cast at h ⊢; linarith)]
    rw [show f - 1 - (k : ℚ) = f - (((k + 1 : ℕ)) : ℚ) by push_cast; ring]


theorem c9_phase3 : ∀ (j : Nat) (f : ℚ) (evs : List (Nat × AgentEvent)),
    (List.replicate j (OpD.undoCmd c9cmd)).foldl runStep ([c9agent f], evs)
      = ([c9agent (f + j)], evs) := by
  intro j
  induction j with
  | zero =>
    intro f evs
    norm_num
  | succ j ih =>
    intro f evs
    rw [List.replicate_succ, List.foldl_cons]
    have h1 : runStep ([c9agent f], evs) (OpD.undoCmd c9cmd) = ([c9agent (f + 1)], evs) := by
      show (MoveCommand.undo c9cmd [c9agent f], evs) = ([c9agent (f + 1)], evs)
      rw [c9_undo]
    rw [h1, ih (f + 1) evs]
    rw [show f + 1 + (j : ℚ) = f + (((j + 1 : ℕ)) : ℚ) by push_cast; ring]


/-- C9 counterexample.  A freshly fueled agent ticked until depletion
emits OutOfFuel once, but eleven undos of a flushed move refill the fuel
to zero and the next tick emits OutOfFuel a second time: the emission is
not once per run, so the claim's exactly-once reading fails in runs that
undo. -/
theorem C9_counterexample_refuel :
    (runOps c9ops [c9agent 2000]).2.count ((0 : Nat), AgentEvent.OutOfFuel) = 2 := by
  have hA : ((List.replicate 2000 [OpD.update 1, OpD.execCmd c9cmd]).flatten).foldl
      runStep ([c9agent 2000], []) = ([c9agent 0], []) := by
    rw [c9_phase1 2000 2000 [] (by norm_num)]
    norm_num
  have hsplit : c9ops = ((List.replicate 2000 [OpD.update 1, OpD.execCmd c9cmd]).flatten
      ++ [OpD.update 1, OpD.execCmd c9cmd])
      ++ (List.replicate 11 (OpD.undoCmd c9cmd) ++ [OpD.update 1]) := by
    unfold c9ops
    rw [show (2001 : ℕ) = 2000 + 1 from rfl, List.replicate_add, List.flatten_append]
    rfl
  have hblock : List.foldl runStep ([c9agent 0], []) [OpD.update 1, OpD.execCmd c9cmd]
      = ([c9agent (-11)], [((0 : Nat), AgentEvent.OutOfFuel)]) := by
    simp only [List.foldl_cons, List.foldl_nil]
    rw [c9_tick_band]
    show (MoveCommand.execute c9cmd [c9agent (-10)], _) = _
    rw [c9_exec]
    norm_num
  rw [show runOps c9ops [c9agent 2000] = c9ops.foldl runStep ([c9agent 2000], []) from rfl,
    hsplit]
  simp only [List.foldl_append]
  rw [hA, hblock,
    c9_phase3 11 (-11) [((0 : Nat), AgentEvent.OutOfFuel)],
    show ((-11 : ℚ) + ((11 : ℕ) : ℚ)) = 0 by norm_num]
  rw [show List.foldl runStep ([c9agent 0], [((0 : Nat), AgentEvent.OutOfFuel)])
        [OpD.update 1]
      = ([c9agent (-10)], [((0 : Nat), AgentEvent.OutOfFuel)]
          ++ [((0 : Nat), AgentEvent.OutOfFuel)]) from by
    simp only [List.foldl_cons, List.foldl_nil]
    rw [c9_tick_band]]
  decide


theorem idsOf_set (l : List AgentD) (i : Nat) (x a : AgentD)
    (hget : l.get? i = some a) (hid : x.id = a.id) :
    idsOf (l.set i x) = idsOf l := by
  induction l generalizing i with
  | nil => simp at hget
  | cons hd tl ih =>
    cases i with
    | zero =>
      rw [List.get?_cons_zero] at hget
      injection hget with h
      subst h
      rw [List.set_cons_zero]
      show x.id :: idsOf tl = hd.id :: idsOf tl
      rw [hid]
    | succ i =>
      rw [List.get?_cons_succ] at hget
      rw [List.set_cons_succ]
      show hd.id :: idsOf (tl.set i x) = hd.id :: idsOf tl
      rw [ih i hget]


theorem execute_idsOf (cmd : MoveCommand) (l : List AgentD) :
    idsOf (MoveCommand.execute cmd l) = idsOf l := by
  unfold MoveCommand.execute
  cases hg : l.get? cmd.agent_id with
  | none => rfl
  | some agent =>
    dsimp only
    by_cases hid : agent.id = cmd.agent_id
    · rw [if_pos hid]
      exact idsOf_set l cmd.agent_id _ agent hg rfl
    · rw [if_neg hid]


theorem undo_idsOf (cmd : MoveCommand) (l : List AgentD) :
    idsOf (MoveCommand.undo cmd l) = idsOf l := by
  unfold MoveCommand.undo
  cases hg : l.get? cmd.agent_id with
  | none => rfl
  | some agent =>
    dsimp only
    by_cases hid : agent.id = cmd.agent_id
    · rw [if_pos hid]
      exact idsOf_set l cmd.agent_id _ agent hg rfl
    · rw [if_neg hid]


theorem idsOf_foldl_execute (cmds : List MoveCommand) :
    ∀ l : List AgentD,
      idsOf (cmds.foldl (fun ags cmd => MoveCommand.execute cmd ags) l) = idsOf l := by
  induction cmds with
  | nil => intro l; rfl
  | cons c rest ih =>
    intro l
    rw [List.foldl_cons, ih, execute_idsOf]


theorem idsOf_enum_map (l : List AgentD)
    (g : Nat × AgentD → AgentD × Option MoveCommand)
    (hg : ∀ pr, ((g pr).1).id = pr.2.id) :
    idsOf ((l.enum.map g).map Prod.fst) = idsOf l := by
  simp only [idsOf, List.map_map]
  show l.enum.map (fun pr => ((g pr).1).id) = l.map AgentD.id
  rw [List.map_congr_left (fun pr _ => hg pr)]
  show (l.enum.map fun pr => pr.2.id) = l.map AgentD.id
  rw [show (l.enum.map fun pr => pr.2.id) = (l.enum.map Prod.snd).map AgentD.id from
    (List.map_map AgentD.id Prod.snd l.enum).symm]
  rw [List.enum_map_snd]


theorem idsOf_map_update (agents : List AgentD) (dt : ℚ) :
    idsOf ((agents.map (fun a => a.update dt)).map Prod.fst) = idsOf agents := by
  simp only [idsOf, List.map_map]
  show agents.map (fun a => ((a.update dt).1).id) = agents.map AgentD.id
  exact List.map_congr_left (fun a _ => updateD_id a dt)


theorem diretaTick_idsOf (normf : Vec2 → Vec2)
    (vf : AgentRvoState → List AgentRvoState → Vec2) (dt : ℚ)
    (agents : List AgentD) :
    idsOf (diretaTick normf vf dt agents).1 = idsOf agents := by
  unfold diretaTick
  dsimp only
  rw [idsOf_foldl_execute]
  refine (idsOf_enum_map _ _ ?_).trans (idsOf_map_update agents dt)
  intro pr
  dsimp only
  split_ifs <;> rfl


theorem idsOf_length (l : List AgentD) : (idsOf l).length = l.length :=
  List.length_map l AgentD.id


/-- C10 amended for the direta build.  Every reachable state of the
direta agents vector has next_agent_id equal to the vector length and
the agent at index k carrying id k: clears reset the counter, spawns
append with the counter and increment it, and ticks and commands
preserve every id.  (The indireta build violates this; see the
counterexample.) -/
theorem C10_id_invariant : ∀ st : List AgentD × Nat, DReach st → IdInv st := by
  intro st h
  induction h with
  | init => exact ⟨rfl, rfl⟩
  | step st st2 hreach hstep ih =>
    obtain ⟨hlen, hids⟩ := ih
    cases hstep with
    | clearAll => exact ⟨rfl, rfl⟩
    | spawnOne pos path speed =>
      constructor
      · rw [List.length_append, List.length_singleton, hlen]
      · show idsOf (st.1 ++ [AgentD.new st.2 pos path speed])
          = List.range (st.1 ++ [AgentD.new st.2 pos path speed]).length
        rw [show idsOf (st.1 ++ [AgentD.new st.2 pos path speed])
            = idsOf st.1 ++ [st.2] from List.map_append _ _ _,
          List.length_append, List.length_singleton, List.range_succ, hids, hlen]
    | tick normf vf dt =>
      have hl : ((diretaTick normf vf dt st.1).1).length = st.1.length := by
        have h2 := congrArg List.length (diretaTick_idsOf normf vf dt st.1)
        rwa [idsOf_length, idsOf_length] at h2
      exact ⟨by rw [hl]; exact hlen, by rw [diretaTick_idsOf, hl]; exact hids⟩
    | execC cmd =>
      have hl : (MoveCommand.execute cmd st.1).length = st.1.length := by
        have h2 := congrArg List.length (execute_idsOf cmd st.1)
        rwa [idsOf_length, idsOf_length] at h2
      exact ⟨by rw [hl]; exact hlen, by rw [execute_idsOf, hl]; exact hids⟩
    | undoC cmd =>
      have hl : (MoveCommand.undo cmd st.1).length = st.1.length := by
        have h2 := congrArg List.length (undo_idsOf cmd st.1)
        rwa [idsOf_length, idsOf_length] at h2
      exact ⟨by rw [hl]; exact hlen, by rw [undo_idsOf, hl]; exact hids⟩


/-- Witness for C10 at a concrete reachable state. -/
theorem C10_id_invariant_witness :
    DReach ([AgentD.new 0 (5, 5) [] 150], 1) ∧
    IdInv ([AgentD.new 0 (5, 5) [] 150], 1) := by
  have hr : DReach ([AgentD.new 0 (5, 5) [] 150], 1) :=
    DReach.step ([], 0) ([AgentD.new 0 (5, 5) [] 150], 1) DReach.init
      (DStep.spawnOne ([], 0) (5, 5) [] 150)
  exact ⟨hr, C10_id_invariant ([AgentD.new 0 (5, 5) [] 150], 1) hr⟩


/-- C10 counterexample.  In the indireta build the benchmark keys clear
the agents vector without resetting next_agent_id, so after a spawn, a
benchmark clear and another spawn the vector holds at index 0 an agent
whose id is 1: the index/id invariant is violated at a reachable state. -/
theorem C10_counterexample_indireta :
    IReach ([AgentI.new 1 (0, 0) [] 150], 2) ∧
    ¬ IdInvI ([AgentI.new 1 (0, 0) [] 150], 2) := by
  constructor
  · have h1 : IReach ([AgentI.new 0 (0, 0) [] 150], 1) :=
      IReach.step ([], 0) ([AgentI.new 0 (0, 0) [] 150], 1) IReach.init
        (IStep.spawnOne ([], 0) (0, 0) [] 150)
    have h2 : IReach ([], 1) :=
      IReach.step ([AgentI.new 0 (0, 0) [] 150], 1) ([], 1) h1
        (IStep.benchClear ([AgentI.new 0 (0, 0) [] 150], 1))
    exact IReach.step ([], 1) ([AgentI.new 1 (0, 0) [] 150], 2) h2
      (IStep.spawnOne ([], 1) (0, 0) [] 150)
  · intro h
    obtain ⟨h1, h2⟩ := h
    rw [show idsOfI [AgentI.new 1 (0, 0) [] 150] = [1] from rfl,
      List.length_singleton, show List.range 1 = [0] from rfl] at h2
    exact absurd h2 (by decide)


end Spec2Proof
